import Mathlib

/-!
Verification of the composite-glyph resolution engine and its supporting
curve geometry (crates `shift-core` and `shift-ir`).

The resolver (`composite.rs`) and the segment classifier (`segment.rs`) are
embedded over exact rationals: the Rust code computes with `f64`, and every
concrete scenario exercised here uses values on which `f64` arithmetic is
exact, so the rational model is faithful on those inputs and states the
intended exact-arithmetic semantics in the universal theorems.  The matrix
decomposition (`component.rs`) and the curve bounding boxes (`curve.rs`)
use `sqrt`/`atan`, so they are embedded over the reals.

Mutable state in the Rust code is made explicit:
* the `visiting : &mut HashSet<String>` cycle guard of
  `flatten_component_named` is restored on exit (inserted on entry, removed
  before returning), so it is passed functionally as a list of names;
* the `placed_anchors : Vec<PlacedAnchor>` list is threaded through the
  per-layer component loop as an explicit accumulator;
* recursion is expressed with an explicit fuel parameter; the canonical
  fuel (number of glyphs in the provider plus one) is proved sufficient.
-/

/-! ## Transform algebra (`shift-ir/src/component.rs`, rational part) -/

/-- Raw 2D affine matrix (6 values), `component.rs` `struct Transform`.
Applying it maps `(x, y)` to `(xx*x + yx*y + dx, xy*x + yy*y + dy)`. -/
structure Transform where
  xx : ℚ
  xy : ℚ
  yx : ℚ
  yy : ℚ
  dx : ℚ
  dy : ℚ
deriving DecidableEq

/-- `Transform::transform_point`. -/
def Transform.transform_point (t : Transform) (x y : ℚ) : ℚ × ℚ :=
  (t.xx * x + t.yx * y + t.dx, t.xy * x + t.yy * y + t.dy)

/-- `Transform::identity`. -/
def Transform.identity : Transform :=
  ⟨1, 0, 0, 1, 0, 0⟩

/-- `Transform::translate`. -/
def Transform.translate (dx dy : ℚ) : Transform :=
  ⟨1, 0, 0, 1, dx, dy⟩

/-- `compose_transform` from `shift-core/src/composite.rs`: composes as
`outer ∘ inner` (apply `inner`, then `outer`). -/
def compose_transform (outer inner : Transform) : Transform :=
  { xx := outer.xx * inner.xx + outer.yx * inner.xy
    xy := outer.xy * inner.xx + outer.yy * inner.xy
    yx := outer.xx * inner.yx + outer.yx * inner.yy
    yy := outer.xy * inner.yx + outer.yy * inner.yy
    dx := outer.xx * inner.dx + outer.yx * inner.dy + outer.dx
    dy := outer.xy * inner.dx + outer.yy * inner.dy + outer.dy }

/-! ## Data model (`shift-ir`), as consumed by the resolver

`GlyphLayer` stores contours, components and anchors in `HashMap`s; the
resolver iterates them (`contours_iter`, `anchors_iter`) in unspecified
hash order, and re-sorts components by creation token before use.  The
model represents each collection as a list in iteration order.  The
resolver reads an anchor's name as an `Option` (`composite.rs` line 131),
so anchor names are modelled as `Option String`. -/

/-- `shift-ir/src/point.rs` `enum PointType`. -/
inductive PointType where
  | onCurve : PointType
  | offCurve : PointType
  | qCurve : PointType
deriving DecidableEq

/-- `shift-ir/src/point.rs` `struct Point`, without the opaque fresh
`PointId` (the resolver regenerates ids and never reads them). -/
structure Point where
  x : ℚ
  y : ℚ
  pointType : PointType
  smooth : Bool
deriving DecidableEq

/-- `Point::is_on_curve`: on-curve or quadratic on-curve. -/
def Point.is_on_curve (p : Point) : Bool :=
  match p.pointType with
  | PointType.onCurve => true
  | PointType.qCurve => true
  | PointType.offCurve => false

/-- `shift-ir/src/contour.rs` `struct Contour` (id dropped; the resolver
reads only points and the closed flag). -/
structure Contour where
  points : List Point
  closed : Bool
deriving DecidableEq

/-- `shift-ir/src/anchor.rs` `struct Anchor`, name read optionally as in
`composite.rs`. -/
structure Anchor where
  name : Option String
  x : ℚ
  y : ℚ
deriving DecidableEq

/-- `shift-ir/src/component.rs` `struct Component`.  `token` is the raw
creation-order id (`ComponentId::raw`).  The component stores its
transform in decomposed form and the resolver consumes only the derived
matrix (`Component::matrix()`); the model carries that matrix value
directly. -/
structure Component where
  token : ℕ
  base_glyph : String
  matrix : Transform
deriving DecidableEq

/-- `shift-ir/src/glyph.rs` `struct GlyphLayer`, restricted to the fields
the resolver reads. -/
structure GlyphLayer where
  contours : List Contour
  components : List Component
  anchors : List Anchor
deriving DecidableEq

/-- `composite.rs` `struct PlacedAnchor`. -/
structure PlacedAnchor where
  name : String
  x : ℚ
  y : ℚ
deriving DecidableEq

/-- `composite.rs` `struct AnchorOffset`. -/
structure AnchorOffset where
  dx : ℚ
  dy : ℚ
deriving DecidableEq

/-- `composite.rs` `struct ResolvedContour`. -/
structure ResolvedContour where
  points : List Point
  closed : Bool
deriving DecidableEq

/-- `composite.rs` `struct ResolvedComponentInstance`. -/
structure ResolvedComponentInstance where
  component_glyph_name : String
  contours : List ResolvedContour
deriving DecidableEq

/-- The `GlyphLayerProvider` capability, modelled extensionally as a finite
association list of glyph names to layers (a `Font` stores its glyphs in a
finite map). -/
structure GlyphLayerProvider where
  entries : List (String × GlyphLayer)
deriving DecidableEq

/-- `GlyphLayerProvider::glyph_layer`: lookup by name. -/
def GlyphLayerProvider.glyph_layer (p : GlyphLayerProvider) (glyph_name : String) :
    Option GlyphLayer :=
  (p.entries.find? (fun e => e.1 == glyph_name)).map (fun e => e.2)

/-- The glyph names the provider can resolve. -/
def GlyphLayerProvider.names (p : GlyphLayerProvider) : List String :=
  p.entries.map (fun e => e.1)

/-! ## Composite resolver (`shift-core/src/composite.rs`) -/

/-- `transform_contour_points`: maps every point of a contour through the
transform, keeping type and smooth flag (ids are regenerated and dropped
from the model). -/
def transform_contour_points (contour : Contour) (transform : Transform) : ResolvedContour :=
  { points := contour.points.map (fun p =>
      let q := transform.transform_point p.x p.y
      { x := q.1, y := q.2, pointType := p.pointType, smooth := p.smooth })
    closed := contour.closed }

/-- Models `name.strip_prefix('_')` followed by the `is_empty` rejection in
`anchor_offset_for_component`: returns the target name of a mark anchor
`_X`, or `none` when the name does not start with an underscore or is just
`"_"`. -/
def mark_target (name : String) : Option String :=
  match name.data with
  | [] => none
  | c :: rest =>
      if c = '_' then (if rest = [] then none else some (String.mk rest)) else none

/-- The anchor loop of `anchor_offset_for_component`: the first named
`_X` anchor whose target `X` occurs in the placed list (searched most
recently appended first, `iter().rev().find`) produces the offset that
moves the transformed `_X` position onto the placed `X` position. -/
def anchor_offset_loop (component_transform : Transform)
    (placed_anchors : List PlacedAnchor) : List Anchor → Option AnchorOffset
  | [] => none
  | anchor :: rest =>
      match anchor.name with
      | none => anchor_offset_loop component_transform placed_anchors rest
      | some name =>
          match mark_target name with
          | none => anchor_offset_loop component_transform placed_anchors rest
          | some target_name =>
              match placed_anchors.reverse.find? (fun a => a.name == target_name) with
              | none => anchor_offset_loop component_transform placed_anchors rest
              | some base_anchor =>
                  let axy := component_transform.transform_point anchor.x anchor.y
                  some { dx := base_anchor.x - axy.1, dy := base_anchor.y - axy.2 }

/-- `anchor_offset_for_component`. -/
def anchor_offset_for_component (component_layer : GlyphLayer)
    (component_transform : Transform) (placed_anchors : List PlacedAnchor) :
    Option AnchorOffset :=
  anchor_offset_loop component_transform placed_anchors component_layer.anchors

/-- `append_component_anchors`: pushes every named anchor of the component
layer, transformed by the component transform, onto the placed stack. -/
def append_component_anchors (component_layer : GlyphLayer)
    (component_transform : Transform) (placed_anchors : List PlacedAnchor) :
    List PlacedAnchor :=
  placed_anchors ++ component_layer.anchors.filterMap (fun anchor =>
    anchor.name.map (fun n =>
      let q := component_transform.transform_point anchor.x anchor.y
      { name := n, x := q.1, y := q.2 }))

/-- `resolve_component_transform`: explicit transform, with the primary
anchor-attachment offset composed on top when one resolves. -/
def resolve_component_transform (provider : GlyphLayerProvider)
    (component_base_glyph : String) (explicit_transform : Transform)
    (placed_anchors : List PlacedAnchor) : Transform :=
  match provider.glyph_layer component_base_glyph with
  | none => explicit_transform
  | some component_layer =>
      match anchor_offset_for_component component_layer explicit_transform placed_anchors with
      | none => explicit_transform
      | some offset =>
          compose_transform (Transform.translate offset.dx offset.dy) explicit_transform

/-- `components.sort_by_key(|(id, _)| id.raw())`: stable ascending sort by
creation token. -/
def sort_components (l : List Component) : List Component :=
  l.insertionSort (fun c d => c.token ≤ d.token)

/-- The per-layer component loop shared by `flatten_component_named` and
`resolve_component_instances_for_layer`: walks the (sorted) components,
threading the placed-anchors accumulator, and returns for each component
its base-glyph name and resolved effective transform.  The placed-anchor
updates do not depend on the recursive flattening, so the loop factors out
of both call sites. -/
def resolved_component_transforms (provider : GlyphLayerProvider) :
    List Component → List PlacedAnchor → List (String × Transform)
  | [], _ => []
  | component :: rest, placed_anchors =>
      let explicit_transform := component.matrix
      let component_transform := resolve_component_transform provider
        component.base_glyph explicit_transform placed_anchors
      let placed' :=
        match provider.glyph_layer component.base_glyph with
        | some component_layer =>
            append_component_anchors component_layer component_transform placed_anchors
        | none => placed_anchors
      (component.base_glyph, component_transform) ::
        resolved_component_transforms provider rest placed'

/-- `flatten_component_named`, with the `visiting` set passed functionally
(the Rust code restores it before returning) and recursion depth paid for
by an explicit fuel parameter.  Fuel zero is unreachable at the canonical
fuel, which is proved sufficient below. -/
def flatten_component_named_fuel (provider : GlyphLayerProvider) :
    ℕ → String → Transform → List String → List ResolvedContour
  | 0, _, _, _ => []
  | fuel + 1, glyph_name, transform, visiting =>
      if glyph_name ∈ visiting then []
      else
        match provider.glyph_layer glyph_name with
        | none => []
        | some layer =>
            (layer.contours.map (fun c => transform_contour_points c transform)) ++
            ((resolved_component_transforms provider (sort_components layer.components) []).map
              (fun be => flatten_component_named_fuel provider fuel be.1
                (compose_transform transform be.2) (glyph_name :: visiting))).flatten

/-- Canonical fuel: one more than the number of distinct glyph names the
provider can resolve.  Every nested call strictly grows the visiting set by
a resolvable name, so recursion depth never exceeds this bound. -/
def canonical_fuel (provider : GlyphLayerProvider) : ℕ :=
  provider.names.toFinset.card + 1

/-- `flatten_component_named` at the canonical (sufficient) fuel. -/
def flatten_component_named (provider : GlyphLayerProvider) (glyph_name : String)
    (transform : Transform) (visiting : List String) : List ResolvedContour :=
  flatten_component_named_fuel provider (canonical_fuel provider) glyph_name transform visiting

/-- `resolve_component_instances_for_layer` at an arbitrary fuel. -/
def resolve_component_instances_fuel (provider : GlyphLayerProvider) (fuel : ℕ)
    (layer : GlyphLayer) (root_glyph_name : String) : List ResolvedComponentInstance :=
  (resolved_component_transforms provider (sort_components layer.components) []).map
    (fun be =>
      { component_glyph_name := be.1
        contours := flatten_component_named_fuel provider fuel be.1 be.2 [root_glyph_name] })

/-- `resolve_component_instances_for_layer`: one instance per direct
component of the layer, components sorted by creation token, the visiting
set seeded with the root name and the placed-anchors list seeded empty. -/
def resolve_component_instances_for_layer (provider : GlyphLayerProvider)
    (layer : GlyphLayer) (root_glyph_name : String) : List ResolvedComponentInstance :=
  resolve_component_instances_fuel provider (canonical_fuel provider) layer root_glyph_name

/-- `flatten_component_contours_for_layer` at an arbitrary fuel. -/
def flatten_component_contours_fuel (provider : GlyphLayerProvider) (fuel : ℕ)
    (layer : GlyphLayer) (root_glyph_name : String) : List ResolvedContour :=
  ((resolve_component_instances_fuel provider fuel layer root_glyph_name).map
    (fun inst => inst.contours)).flatten

/-- `flatten_component_contours_for_layer`: flattens the instance list into
a single contour list (`flat_map` over instance contours). -/
def flatten_component_contours_for_layer (provider : GlyphLayerProvider)
    (layer : GlyphLayer) (root_glyph_name : String) : List ResolvedContour :=
  flatten_component_contours_fuel provider (canonical_fuel provider) layer root_glyph_name

/-! ## Specification-side gather (for the refinement claim C1)

`spec_reachable_contours` is the second, specification-side definition for
claim C1, written from the spec's words: it returns, for every glyph
transitively reachable through components, that glyph's contours with each
point transformed by the outer-then-inner composition of all ancestor
component transforms (the effective, anchor-adjusted transforms, resolved
with the same per-layer sibling rules).  It performs no cycle detection —
on an acyclic graph the recursion is well defined and the fuel below is
never exhausted. -/

/-- Specification-side recursion for C1: contours of the named glyph under
the accumulated transform, followed by the gathered contours of every
component's base glyph under the composed transform.  No `visiting` guard. -/
def spec_reachable_contours (provider : GlyphLayerProvider) :
    ℕ → String → Transform → List ResolvedContour
  | 0, _, _ => []
  | fuel + 1, glyph_name, transform =>
      match provider.glyph_layer glyph_name with
      | none => []
      | some layer =>
          (layer.contours.map (fun c => transform_contour_points c transform)) ++
          ((resolved_component_transforms provider (sort_components layer.components) []).map
            (fun be => spec_reachable_contours provider fuel be.1
              (compose_transform transform be.2))).flatten

/-- Specification-side counterpart of `flatten_component_contours_for_layer`
for C1: the union (in component order) over every direct component of the
layer of the transitively reachable contours, the root layer's own contours
excluded. -/
def spec_flatten_for_layer (provider : GlyphLayerProvider) (layer : GlyphLayer) :
    List ResolvedContour :=
  ((resolved_component_transforms provider (sort_components layer.components) []).map
    (fun be => spec_reachable_contours provider (canonical_fuel provider) be.1 be.2)).flatten

/-! ## Termination measure for the cycle guard -/

/-- Number of resolvable glyph names not yet in the visiting set; every
nested call of `flatten_component_named` strictly decreases it. -/
def visit_measure (p : GlyphLayerProvider) (visiting : List String) : ℕ :=
  (p.names.toFinset.filter (fun n => n ∉ visiting)).card

/-! ## Curve segment classifier (`shift-ir/src/segment.rs`) -/

/-- `segment.rs` `enum CurveSegment` (by value; the Rust variant holds
references into the point slice). -/
inductive CurveSegment where
  | line (p0 p1 : Point)
  | quad (p0 c p1 : Point)
  | cubic (p0 c0 c1 p1 : Point)
deriving DecidableEq

/-- The iterator's `limit`: `points.len()` for closed contours, one less
(saturating) for open ones. -/
def seg_limit (points : List Point) (closed : Bool) : ℕ :=
  if closed then points.length else points.length - 1

/-- `CurveSegmentIter::get`: in-range index, wrap-around for closed
non-empty contours, `none` otherwise. -/
def seg_get (points : List Point) (closed : Bool) (idx : ℕ) : Option Point :=
  if h : idx < points.length then some (points.get ⟨idx, h⟩)
  else if h2 : closed = true ∧ points.length ≠ 0 then
    some (points.get ⟨idx % points.length, Nat.mod_lt idx (Nat.pos_of_ne_zero h2.2)⟩)
  else none

/-- The `Iterator::next` loop of `CurveSegmentIter`, unrolled into a list:
`pos` advances by 1 (line or unmatched point), 2 (quad) or 3 (cubic) while
`pos < limit`.  The loop runs at most `limit` times, paid for by the fuel
argument (`curve_segments` supplies `limit`, which always suffices since
`pos` strictly increases). -/
def curve_segments_go (points : List Point) (closed : Bool) :
    ℕ → ℕ → List CurveSegment
  | 0, _ => []
  | fuel + 1, pos =>
      if pos < seg_limit points closed then
        match seg_get points closed pos, seg_get points closed (pos + 1) with
        | some p1, some p2 =>
            if p1.is_on_curve && p2.is_on_curve then
              CurveSegment.line p1 p2 :: curve_segments_go points closed fuel (pos + 1)
            else if p1.is_on_curve && !p2.is_on_curve then
              match seg_get points closed (pos + 2) with
              | some p3 =>
                  if p3.is_on_curve then
                    CurveSegment.quad p1 p2 p3 :: curve_segments_go points closed fuel (pos + 2)
                  else
                    match seg_get points closed (pos + 3) with
                    | some p4 =>
                        CurveSegment.cubic p1 p2 p3 p4 ::
                          curve_segments_go points closed fuel (pos + 3)
                    | none => curve_segments_go points closed fuel (pos + 1)
              | none => curve_segments_go points closed fuel (pos + 1)
            else curve_segments_go points closed fuel (pos + 1)
        | _, _ => []
      else []

/-- The full segment list produced by `CurveSegmentIter::new(points, closed)`. -/
def curve_segments (points : List Point) (closed : Bool) : List CurveSegment :=
  curve_segments_go points closed (seg_limit points closed) 0

/-- What it means for a yielded segment to start at index `i`: the branch
conditions of the iterator, together with the segment's points being the
points at `i, i+1, ...`.  A cubic constrains its first three points'
types only — the fourth point is consumed unchecked. -/
def segment_shape_at (points : List Point) (closed : Bool) (i : ℕ) :
    CurveSegment → Prop
  | CurveSegment.line p1 p2 =>
      seg_get points closed i = some p1 ∧ seg_get points closed (i + 1) = some p2 ∧
      p1.is_on_curve = true ∧ p2.is_on_curve = true
  | CurveSegment.quad p1 p2 p3 =>
      seg_get points closed i = some p1 ∧ seg_get points closed (i + 1) = some p2 ∧
      seg_get points closed (i + 2) = some p3 ∧
      p1.is_on_curve = true ∧ p2.is_on_curve = false ∧ p3.is_on_curve = true
  | CurveSegment.cubic p1 p2 p3 p4 =>
      seg_get points closed i = some p1 ∧ seg_get points closed (i + 1) = some p2 ∧
      seg_get points closed (i + 2) = some p3 ∧ seg_get points closed (i + 3) = some p4 ∧
      p1.is_on_curve = true ∧ p2.is_on_curve = false ∧ p3.is_on_curve = false

/-! ## Concrete scenario data

Shared fonts used by the scenario claims.  All transforms are identities or
integer translations, on which `f64` arithmetic is exact. -/

/-- An on-curve point. -/
def onPt (x y : ℚ) : Point :=
  ⟨x, y, PointType.onCurve, false⟩

/-- An off-curve point. -/
def offPt (x y : ℚ) : Point :=
  ⟨x, y, PointType.offCurve, false⟩

/-- B's 2-point contour in the cycle scenario. -/
def contour_B : Contour :=
  ⟨[onPt 0 0, onPt 20 20], false⟩

/-- C's independent 2-point contour in the cycle scenario. -/
def contour_C : Contour :=
  ⟨[onPt 10 0, onPt 30 20], false⟩

/-- A references B then C. -/
def layer_A : GlyphLayer :=
  ⟨[], [⟨1, "B", Transform.identity⟩, ⟨2, "C", Transform.identity⟩], []⟩

/-- B has a contour and a component back to A (the cycle). -/
def layer_B : GlyphLayer :=
  ⟨[contour_B], [⟨3, "A", Transform.identity⟩], []⟩

/-- C has only its contour. -/
def layer_C : GlyphLayer :=
  ⟨[contour_C], [], []⟩

/-- The cyclic font of the C2 scenario. -/
def font_cycle : GlyphLayerProvider :=
  ⟨[("A", layer_A), ("B", layer_B), ("C", layer_C)]⟩

/-- The 2-point contour (0,0)-(10,0) shared by base and mark. -/
def contour_ten : Contour :=
  ⟨[onPt 0 0, onPt 10 0], false⟩

/-- Base glyph layer: contour plus anchor `top` at (100, 200). -/
def layer_base : GlyphLayer :=
  ⟨[contour_ten], [], [⟨some "top", 100, 200⟩]⟩

/-- Mark glyph layer: contour plus anchor `_top` at (5, 0). -/
def layer_mark : GlyphLayer :=
  ⟨[contour_ten], [], [⟨some "_top", 5, 0⟩]⟩

/-- Composite layer: component(base) then component(mark), no explicit
transforms. -/
def layer_comp : GlyphLayer :=
  ⟨[], [⟨1, "base", Transform.identity⟩, ⟨2, "mark", Transform.identity⟩], []⟩

/-- The anchor-attachment font of the C5 scenario. -/
def font_marks : GlyphLayerProvider :=
  ⟨[("base", layer_base), ("mark", layer_mark), ("comp", layer_comp)]⟩

/-- A wrapper whose only content is a nested mark component. -/
def layer_wrapper : GlyphLayer :=
  ⟨[], [⟨1, "mark", Transform.identity⟩], []⟩

/-- Root layer referencing base (which places `top`) and then the wrapper
(whose nested mark carries `_top`). -/
def layer_root_nested : GlyphLayer :=
  ⟨[], [⟨1, "base", Transform.identity⟩, ⟨2, "wrapper", Transform.identity⟩], []⟩

/-- Font for the C10 root-vs-nested placed-anchor scenario. -/
def font_nested : GlyphLayerProvider :=
  ⟨[("base", layer_base), ("mark", layer_mark), ("wrapper", layer_wrapper),
    ("root", layer_root_nested)]⟩

/-- A wrapper containing base then mark as direct siblings. -/
def layer_wrapper2 : GlyphLayer :=
  ⟨[], [⟨1, "base", Transform.identity⟩, ⟨2, "mark", Transform.identity⟩], []⟩

/-- Root layer referencing the sibling wrapper with an explicit
translation by (1000, 0). -/
def layer_root_shift : GlyphLayer :=
  ⟨[], [⟨1, "wrapper2", Transform.translate 1000 0⟩], []⟩

/-- Font for the C10 level-local-anchor-transform scenario. -/
def font_shifted : GlyphLayerProvider :=
  ⟨[("base", layer_base), ("mark", layer_mark), ("wrapper2", layer_wrapper2),
    ("rootS", layer_root_shift)]⟩

/-- A wrapper containing only base (whose `top` anchor is placed inside the
wrapper's own expansion). -/
def layer_wrapper3 : GlyphLayer :=
  ⟨[], [⟨1, "base", Transform.identity⟩], []⟩

/-- Root layer referencing the wrapper, then a sibling mark. -/
def layer_root_sib : GlyphLayer :=
  ⟨[], [⟨1, "wrapper3", Transform.identity⟩, ⟨2, "mark", Transform.identity⟩], []⟩

/-- Font for the C10 nested-branch-anchor-invisibility scenario. -/
def font_sibling : GlyphLayerProvider :=
  ⟨[("base", layer_base), ("mark", layer_mark), ("wrapper3", layer_wrapper3),
    ("rootT", layer_root_sib)]⟩

/-- A layer whose only component references an unresolvable glyph. -/
def layer_ghost_user : GlyphLayer :=
  ⟨[], [⟨1, "ghost", Transform.identity⟩], []⟩

/-- Font with a dangling component reference, for the C4 witness. -/
def font_missing : GlyphLayerProvider :=
  ⟨[("user", layer_ghost_user)]⟩

/-! ## Decomposed transforms over the reals (`shift-ir/src/component.rs`) -/

/-- `component.rs` `struct Transform` over the reals, as consumed by
`DecomposedTransform::from_matrix` (which needs `sqrt`/`atan2`). -/
structure TransformR where
  xx : ℝ
  xy : ℝ
  yx : ℝ
  yy : ℝ
  dx : ℝ
  dy : ℝ

/-- `component.rs` `struct DecomposedTransform`. -/
structure DecomposedTransform where
  translate_x : ℝ
  translate_y : ℝ
  rotation : ℝ
  scale_x : ℝ
  scale_y : ℝ
  skew_x : ℝ
  skew_y : ℝ
  t_center_x : ℝ
  t_center_y : ℝ

/-- `f64::atan2`: `y.atan2(x)` is the argument of the complex number
`x + y·i`. -/
noncomputable def atan2 (y x : ℝ) : ℝ :=
  Complex.arg ⟨x, y⟩

/-- `f64::to_degrees`. -/
noncomputable def to_degrees (x : ℝ) : ℝ :=
  x * 180 / Real.pi

/-- `f64::EPSILON` = 2⁻⁵². -/
noncomputable def f64_epsilon : ℝ :=
  1 / 2 ^ (52 : ℕ)

/-- `DecomposedTransform::from_matrix`: best-effort decomposition — scale
magnitudes from column norms, the sign of `scale_y` flipped when the
determinant is negative, rotation from `atan2` of the first column, `skew_x`
from the column dot-product ratio, `skew_y` and the transform center always
zero. -/
noncomputable def DecomposedTransform.from_matrix (m : TransformR) : DecomposedTransform :=
  let scale_x := Real.sqrt (m.xx * m.xx + m.xy * m.xy)
  let scale_y_mag := Real.sqrt (m.yx * m.yx + m.yy * m.yy)
  let det := m.xx * m.yy - m.xy * m.yx
  let scale_y := if det < 0 then -scale_y_mag else scale_y_mag
  let rotation := to_degrees (atan2 m.xy m.xx)
  let skew_x :=
    if |scale_y| > f64_epsilon then
      to_degrees (Real.arctan ((m.xx * m.yx + m.xy * m.yy) / (scale_x * scale_y)))
    else 0
  { translate_x := m.dx
    translate_y := m.dy
    rotation := rotation
    scale_x := scale_x
    scale_y := scale_y
    skew_x := skew_x
    skew_y := 0
    t_center_x := 0
    t_center_y := 0 }

/-! ## Tight bounding boxes (`shift-core/src/curve.rs`), over the reals -/

/-- A point as read by `segment_bounds` (coordinates only). -/
structure RPoint where
  x : ℝ
  y : ℝ

/-- `CurveSegment` as consumed by `segment_bounds`. -/
inductive RSegment where
  | line (p0 p1 : RPoint)
  | quad (p0 c p1 : RPoint)
  | cubic (p0 c0 c1 p1 : RPoint)

/-- The literal `1e-12` used by the extremum finders. -/
noncomputable def tol12 : ℝ :=
  1 / 1000000000000

/-- `quad_eval_1d`. -/
noncomputable def quad_eval_1d (p0 c p1 t : ℝ) : ℝ :=
  let mt := 1 - t
  mt * mt * p0 + 2 * mt * t * c + t * t * p1

/-- `cubic_eval_1d`. -/
noncomputable def cubic_eval_1d (p0 c0 c1 p1 t : ℝ) : ℝ :=
  let mt := 1 - t
  mt * mt * mt * p0 + 3 * mt * mt * t * c0 + 3 * mt * t * t * c1 + t * t * t * p1

/-- `find_quad_extremum_1d`: the single derivative root
`t = (p0 - c) / (p0 - 2c + p1)`, kept only when strictly inside (0, 1). -/
noncomputable def find_quad_extremum_1d (p0 c p1 : ℝ) : Option ℝ :=
  let denom := p0 - 2 * c + p1
  if |denom| < tol12 then none
  else
    let t := (p0 - c) / denom
    if 0 < t ∧ t < 1 then some t else none

/-- `find_cubic_extrema_1d`: roots of the derivative's quadratic, kept only
when strictly inside (0, 1). -/
noncomputable def find_cubic_extrema_1d (p0 c0 c1 p1 : ℝ) : List ℝ :=
  let a := -3 * p0 + 9 * c0 - 9 * c1 + 3 * p1
  let b := 6 * p0 - 12 * c0 + 6 * c1
  let c := -3 * p0 + 3 * c0
  if |a| < tol12 then
    if |b| > tol12 then
      let t := -c / b
      if 0 < t ∧ t < 1 then [t] else []
    else []
  else
    let discriminant := b * b - 4 * a * c
    if discriminant < 0 then []
    else
      let sqrt_d := Real.sqrt discriminant
      let t1 := (-b + sqrt_d) / (2 * a)
      let t2 := (-b - sqrt_d) / (2 * a)
      (if 0 < t1 ∧ t1 < 1 then [t1] else []) ++
      (if 0 < t2 ∧ t2 < 1 then [t2] else [])

/-- `line_bounds`. -/
noncomputable def line_bounds (x0 y0 x1 y1 : ℝ) : ℝ × ℝ × ℝ × ℝ :=
  (min x0 x1, min y0 y1, max x0 x1, max y0 y1)

/-- One axis of `quad_bounds`: the endpoint min/max, folded with the Bézier
value at the interior derivative root when there is one. -/
noncomputable def quad_axis_bounds (p0 c p1 : ℝ) : ℝ × ℝ :=
  match find_quad_extremum_1d p0 c p1 with
  | some t =>
      let v := quad_eval_1d p0 c p1 t
      (min (min p0 p1) v, max (max p0 p1) v)
  | none => (min p0 p1, max p0 p1)

/-- `quad_bounds`. -/
noncomputable def quad_bounds (x0 y0 cx cy x1 y1 : ℝ) : ℝ × ℝ × ℝ × ℝ :=
  let bx := quad_axis_bounds x0 cx x1
  let byy := quad_axis_bounds y0 cy y1
  (bx.1, byy.1, bx.2, byy.2)

/-- One axis of `cubic_bounds`: the endpoint min/max, folded with the
Bézier values at the interior derivative roots. -/
noncomputable def cubic_axis_bounds (p0 c0 c1 p1 : ℝ) : ℝ × ℝ :=
  (find_cubic_extrema_1d p0 c0 c1 p1).foldl
    (fun acc t =>
      let v := cubic_eval_1d p0 c0 c1 p1 t
      (min acc.1 v, max acc.2 v))
    (min p0 p1, max p0 p1)

/-- `cubic_bounds` (the two `[f64; 4]` arrays passed coordinate-wise). -/
noncomputable def cubic_bounds (x0 cx0 cx1 x1 y0 cy0 cy1 y1 : ℝ) : ℝ × ℝ × ℝ × ℝ :=
  let bx := cubic_axis_bounds x0 cx0 cx1 x1
  let byy := cubic_axis_bounds y0 cy0 cy1 y1
  (bx.1, byy.1, bx.2, byy.2)

/-- `segment_bounds`: dispatch on the segment kind. -/
noncomputable def segment_bounds : RSegment → ℝ × ℝ × ℝ × ℝ
  | RSegment.line p0 p1 => line_bounds p0.x p0.y p1.x p1.y
  | RSegment.quad p0 c p1 => quad_bounds p0.x p0.y c.x c.y p1.x p1.y
  | RSegment.cubic p0 c0 c1 p1 =>
      cubic_bounds p0.x c0.x c1.x p1.x p0.y c0.y c1.y p1.y

/-- The control-point convex-hull bounding box (min/max over all control
points, per axis). -/
noncomputable def hull_box : RSegment → ℝ × ℝ × ℝ × ℝ
  | RSegment.line p0 p1 =>
      (min p0.x p1.x, min p0.y p1.y, max p0.x p1.x, max p0.y p1.y)
  | RSegment.quad p0 c p1 =>
      (min p0.x (min c.x p1.x), min p0.y (min c.y p1.y),
        max p0.x (max c.x p1.x), max p0.y (max c.y p1.y))
  | RSegment.cubic p0 c0 c1 p1 =>
      (min p0.x (min c0.x (min c1.x p1.x)), min p0.y (min c0.y (min c1.y p1.y)),
        max p0.x (max c0.x (max c1.x p1.x)), max p0.y (max c0.y (max c1.y p1.y)))

/-- All interior control points collinear with the endpoints (zero cross
product), the condition named by claim C8. -/
def seg_collinear : RSegment → Prop
  | RSegment.line _ _ => True
  | RSegment.quad p0 c p1 =>
      (c.x - p0.x) * (p1.y - p0.y) - (c.y - p0.y) * (p1.x - p0.x) = 0
  | RSegment.cubic p0 c0 c1 p1 =>
      (c0.x - p0.x) * (p1.y - p0.y) - (c0.y - p0.y) * (p1.x - p0.x) = 0 ∧
      (c1.x - p0.x) * (p1.y - p0.y) - (c1.y - p0.y) * (p1.x - p0.x) = 0

/-- All interior control points inside the endpoints' axis-aligned box, the
sufficient condition of the amended C8. -/
def controls_within_endpoints : RSegment → Prop
  | RSegment.line _ _ => True
  | RSegment.quad p0 c p1 =>
      min p0.x p1.x ≤ c.x ∧ c.x ≤ max p0.x p1.x ∧
      min p0.y p1.y ≤ c.y ∧ c.y ≤ max p0.y p1.y
  | RSegment.cubic p0 c0 c1 p1 =>
      (min p0.x p1.x ≤ c0.x ∧ c0.x ≤ max p0.x p1.x ∧
        min p0.y p1.y ≤ c0.y ∧ c0.y ≤ max p0.y p1.y) ∧
      (min p0.x p1.x ≤ c1.x ∧ c1.x ≤ max p0.x p1.x ∧
        min p0.y p1.y ≤ c1.y ∧ c1.y ≤ max p0.y p1.y)

/-! ## Transform composition algebra (claim C6) -/

/-- C6: for all transforms `A` and `B` and every point, applying
`compose_transform A B` equals applying `B` and then `A` (outer ∘ inner),
and composition is associative — over the exact rationals the two
associations are equal on the nose, hence in particular they map any point
to the same coordinates (well within any floating-point tolerance). -/
theorem compose_transform_algebra :
    (∀ (A B : Transform) (x y : ℚ),
      (compose_transform A B).transform_point x y =
        A.transform_point (B.transform_point x y).1 (B.transform_point x y).2) ∧
    (∀ A B C : Transform,
      compose_transform (compose_transform A B) C =
        compose_transform A (compose_transform B C)) ∧
    (∀ (A B C : Transform) (x y : ℚ),
      (compose_transform (compose_transform A B) C).transform_point x y =
        (compose_transform A (compose_transform B C)).transform_point x y) := by
  refine ⟨fun A B x y => ?_, fun A B C => ?_, fun A B C x y => ?_⟩
  · simp only [compose_transform, Transform.transform_point, Prod.mk.injEq]
    exact ⟨by ring, by ring⟩
  · simp only [compose_transform, Transform.mk.injEq]
    refine ⟨by ring, by ring, by ring, by ring, by ring, by ring⟩
  · simp only [compose_transform, Transform.transform_point, Prod.mk.injEq]
    exact ⟨by ring, by ring⟩

/-! ## Provider lookup and termination lemmas -/

/-- A successful layer lookup comes from an entry of the provider. -/
theorem glyph_layer_entry {p : GlyphLayerProvider} {g : String} {l : GlyphLayer}
    (h : p.glyph_layer g = some l) : ∃ e ∈ p.entries, e.1 = g ∧ e.2 = l := by
  unfold GlyphLayerProvider.glyph_layer at h
  cases hf : p.entries.find? (fun e => e.1 == g) with
  | none => rw [hf] at h; simp at h
  | some e =>
      rw [hf] at h
      simp only [Option.map_some', Option.some.injEq] at h
      have he1 := List.find?_some hf
      have hmem := List.mem_of_find?_eq_some hf
      exact ⟨e, hmem, by simpa using he1, h⟩

/-- A successful layer lookup means the name is among the provider's names. -/
theorem glyph_layer_mem_names {p : GlyphLayerProvider} {g : String} {l : GlyphLayer}
    (h : p.glyph_layer g = some l) : g ∈ p.names := by
  obtain ⟨e, he, h1, _⟩ := glyph_layer_entry h
  exact h1 ▸ List.mem_map_of_mem (fun e => e.1) he

/-- Visiting a fresh resolvable name strictly shrinks the termination
measure. -/
theorem visit_measure_lt {p : GlyphLayerProvider} {g : String} {visiting : List String}
    (hg : g ∈ p.names) (hv : g ∉ visiting) :
    visit_measure p (g :: visiting) < visit_measure p visiting := by
  apply Finset.card_lt_card
  rw [Finset.ssubset_iff_of_subset]
  · refine ⟨g, ?_, ?_⟩
    · simp [visit_measure, hg, hv]
    · simp
  · intro x hx
    simp only [Finset.mem_filter, List.mem_toFinset] at hx ⊢
    exact ⟨hx.1, fun hxv => hx.2 (List.mem_cons_of_mem _ hxv)⟩

/-- The measure never exceeds the number of provider names. -/
theorem visit_measure_le (p : GlyphLayerProvider) (visiting : List String) :
    visit_measure p visiting ≤ p.names.toFinset.card :=
  Finset.card_le_card (Finset.filter_subset _ _)

/-- Fuel congruence: any two fuels above the termination measure give the
same flattening. -/
theorem flatten_fuel_congr (p : GlyphLayerProvider) :
    ∀ (f1 f2 : ℕ) (g : String) (T : Transform) (visiting : List String),
      visit_measure p visiting < f1 → visit_measure p visiting < f2 →
      flatten_component_named_fuel p f1 g T visiting =
        flatten_component_named_fuel p f2 g T visiting := by
  intro f1
  induction f1 with
  | zero => exact fun f2 g T v h1 _ => absurd h1 (Nat.not_lt_zero _)
  | succ k ih =>
      intro f2 g T v h1 h2
      cases f2 with
      | zero => exact absurd h2 (Nat.not_lt_zero _)
      | succ m =>
          simp only [flatten_component_named_fuel]
          by_cases hg : g ∈ v
          · rw [if_pos hg, if_pos hg]
          · rw [if_neg hg, if_neg hg]
            cases hl : p.glyph_layer g with
            | none => rfl
            | some layer =>
                have hdec := visit_measure_lt (glyph_layer_mem_names hl) hg
                have hbound : ∀ be : String × Transform,
                    flatten_component_named_fuel p k be.1 (compose_transform T be.2)
                        (g :: v) =
                      flatten_component_named_fuel p m be.1 (compose_transform T be.2)
                        (g :: v) :=
                  fun be => ih m be.1 _ (g :: v) (by omega) (by omega)
                simp only [hbound]

/-- The canonical fuel is above the measure of any visiting set. -/
theorem visit_measure_lt_canonical (p : GlyphLayerProvider) (visiting : List String) :
    visit_measure p visiting < canonical_fuel p :=
  Nat.lt_succ_of_le (visit_measure_le p visiting)

/-- C3: for every finite component graph — every provider, including
self-referential and mutually referential glyphs — resolution terminates
and returns a result: the fuel-indexed unrolling of
`resolve_component_instances_for_layer` and
`flatten_component_contours_for_layer` is stable at the canonical fuel
(one more than the number of resolvable glyph names), because a glyph name
already in the active call chain is returned from immediately
(`flatten_component_named` visits every glyph name at most once per active
call chain, the second conjunct). -/
theorem composite_resolution_terminates :
    (∀ (provider : GlyphLayerProvider) (layer : GlyphLayer) (root_glyph_name : String)
        (fuel : ℕ), canonical_fuel provider ≤ fuel →
      resolve_component_instances_fuel provider fuel layer root_glyph_name =
          resolve_component_instances_for_layer provider layer root_glyph_name ∧
        flatten_component_contours_fuel provider fuel layer root_glyph_name =
          flatten_component_contours_for_layer provider layer root_glyph_name) ∧
    (∀ (provider : GlyphLayerProvider) (fuel : ℕ) (glyph_name : String)
        (transform : Transform) (visiting : List String), glyph_name ∈ visiting →
      flatten_component_named_fuel provider fuel glyph_name transform visiting = []) := by
  constructor
  · intro p layer root fuel hfuel
    have hinst : resolve_component_instances_fuel p fuel layer root =
        resolve_component_instances_for_layer p layer root := by
      unfold resolve_component_instances_for_layer resolve_component_instances_fuel
      have hpt : ∀ be : String × Transform,
          flatten_component_named_fuel p fuel be.1 be.2 [root] =
            flatten_component_named_fuel p (canonical_fuel p) be.1 be.2 [root] :=
        fun be => flatten_fuel_congr p fuel (canonical_fuel p) be.1 be.2 [root]
          (lt_of_lt_of_le (visit_measure_lt_canonical p [root]) hfuel)
          (visit_measure_lt_canonical p [root])
      simp only [hpt, flatten_component_named]
    refine ⟨hinst, ?_⟩
    unfold flatten_component_contours_for_layer flatten_component_contours_fuel
    rw [hinst]
    rfl
  · intro p fuel g T v hg
    cases fuel with
    | zero => rfl
    | succ k => simp [flatten_component_named_fuel, hg]

/-- Witness for C3: at the cyclic three-glyph font, fuel 10 exceeds the
canonical fuel and yields the same instances, and a name already in the
visiting set contributes nothing. -/
theorem composite_resolution_terminates_witness :
    (canonical_fuel font_cycle ≤ 10 ∧
      resolve_component_instances_fuel font_cycle 10 layer_A "A" =
        resolve_component_instances_for_layer font_cycle layer_A "A") ∧
    ("A" ∈ ["A", "B"] ∧
      flatten_component_named_fuel font_cycle 7 "A" Transform.identity ["A", "B"] = []) :=
  ⟨⟨by decide, (composite_resolution_terminates.1 font_cycle layer_A "A" 10 (by decide)).1⟩,
   ⟨by decide, composite_resolution_terminates.2 font_cycle 7 "A" Transform.identity
      ["A", "B"] (by decide)⟩⟩

/-! ## Completeness on acyclic graphs (claim C1) -/

/-- Sorting preserves membership. -/
theorem sort_components_mem (c : Component) (l : List Component) :
    c ∈ sort_components l ↔ c ∈ l :=
  (List.perm_insertionSort _ l).mem_iff

/-- Every resolved (name, transform) pair comes from a component of the
list, with the component's base-glyph name. -/
theorem resolved_component_transforms_mem (p : GlyphLayerProvider) :
    ∀ (comps : List Component) (placed : List PlacedAnchor)
      (be : String × Transform), be ∈ resolved_component_transforms p comps placed →
      ∃ c ∈ comps, c.base_glyph = be.1 := by
  intro comps
  induction comps with
  | nil => intro placed be h; simp [resolved_component_transforms] at h
  | cons c rest ih =>
      intro placed be h
      simp only [resolved_component_transforms, List.mem_cons] at h
      cases h with
      | inl h => exact ⟨c, List.mem_cons_self _ _, by rw [h]⟩
      | inr h =>
          obtain ⟨d, hd, hdb⟩ := ih _ be h
          exact ⟨d, List.mem_cons_of_mem _ hd, hdb⟩

/-- On rank-decreasing (hence acyclic) component graphs the cycle guard
never fires: the implementation coincides with the specification-side
gather at every fuel, whenever every name in the visiting set has rank
above the current glyph. -/
theorem flatten_fuel_eq_spec (p : GlyphLayerProvider) (r : String → ℕ)
    (hr : ∀ e ∈ p.entries, ∀ c ∈ e.2.components, r c.base_glyph < r e.1) :
    ∀ (fuel : ℕ) (g : String) (T : Transform) (visiting : List String),
      (∀ v ∈ visiting, r g < r v) →
      flatten_component_named_fuel p fuel g T visiting =
        spec_reachable_contours p fuel g T := by
  intro fuel
  induction fuel with
  | zero => intros; rfl
  | succ k ih =>
      intro g T v hv
      have hg : g ∉ v := fun h => absurd (hv g h) (lt_irrefl _)
      simp only [flatten_component_named_fuel, spec_reachable_contours, if_neg hg]
      cases hl : p.glyph_layer g with
      | none => rfl
      | some layer =>
          dsimp only
          congr 1
          congr 1
          apply List.map_congr_left
          intro be hbe
          obtain ⟨c, hc, hcb⟩ := resolved_component_transforms_mem p _ _ be hbe
          obtain ⟨e, he, he1, he2⟩ := glyph_layer_entry hl
          have hlt : r be.1 < r g := by
            rw [← hcb, ← he1]
            exact hr e he c (by rw [he2]; exact (sort_components_mem c _).1 hc)
          apply ih
          intro v' hv'
          rcases List.mem_cons.mp hv' with h | h
          · rw [h]; exact hlt
          · exact lt_trans hlt (hv v' h)

/-- C1: on every finite, acyclic component graph (witnessed by a rank
function that strictly decreases along component references) and every
layer, `flatten_component_contours_for_layer` returns exactly the
specification-side union of the contours of every transitively reachable
component glyph — the root layer's own contours excluded — each point
transformed by the outer-then-inner composition of all ancestor component
transforms. -/
theorem flatten_complete_on_acyclic (provider : GlyphLayerProvider) (layer : GlyphLayer)
    (root_glyph_name : String) (r : String → ℕ)
    (hr : ∀ e ∈ provider.entries, ∀ c ∈ e.2.components, r c.base_glyph < r e.1)
    (hroot : ∀ c ∈ layer.components, r c.base_glyph < r root_glyph_name) :
    flatten_component_contours_for_layer provider layer root_glyph_name =
      spec_flatten_for_layer provider layer := by
  unfold flatten_component_contours_for_layer flatten_component_contours_fuel
    resolve_component_instances_fuel spec_flatten_for_layer
  rw [List.map_map]
  congr 1
  apply List.map_congr_left
  intro be hbe
  obtain ⟨c, hc, hcb⟩ := resolved_component_transforms_mem provider _ _ be hbe
  simp only [Function.comp_apply]
  apply flatten_fuel_eq_spec provider r hr
  intro v hv
  rw [List.mem_singleton.mp hv, ← hcb]
  exact hroot c ((sort_components_mem c _).1 hc)

/-- Witness for C1: the anchor-attachment font is acyclic (rank 1 for the
composite, 0 for the leaves), and flattening agrees with the
specification-side gather there. -/
theorem flatten_complete_on_acyclic_witness :
    flatten_component_contours_for_layer font_marks layer_comp "comp" =
      spec_flatten_for_layer font_marks layer_comp :=
  flatten_complete_on_acyclic font_marks layer_comp "comp"
    (fun g => if g = "comp" then 1 else 0) (by decide) (by decide)

/-! ## Cycle scenario (claim C2) -/

/-- C2: glyph A has components B and C; B has a 2-point contour and a
component back to A (a cycle); C has an independent 2-point contour.
Resolving A yields exactly B's and C's contours — a name already in the
currently-being-expanded set (second conjunct, in general) is treated as a
cycle and contributes no further geometry, leaving sibling branches
unaffected. -/
theorem cycle_with_surviving_sibling :
    (flatten_component_contours_for_layer font_cycle layer_A "A" =
      [⟨[onPt 0 0, onPt 20 20], false⟩, ⟨[onPt 10 0, onPt 30 20], false⟩]) ∧
    (∀ (provider : GlyphLayerProvider) (fuel : ℕ) (glyph_name : String)
        (transform : Transform) (visiting : List String), glyph_name ∈ visiting →
      flatten_component_named_fuel provider fuel glyph_name transform visiting = []) := by
  constructor
  · have h4 : canonical_fuel font_cycle = 4 := rfl
    simp [flatten_component_contours_for_layer, flatten_component_contours_fuel,
      resolve_component_instances_fuel, resolve_component_instances_for_layer,
      resolved_component_transforms, flatten_component_named_fuel, h4,
      resolve_component_transform, anchor_offset_for_component, anchor_offset_loop,
      append_component_anchors, transform_contour_points, sort_components,
      GlyphLayerProvider.glyph_layer, Transform.transform_point, compose_transform,
      Transform.identity, font_cycle, layer_A, layer_B, layer_C, contour_B, contour_C,
      onPt, List.insertionSort, List.orderedInsert, List.find?, flatten_component_named]
  · intro p fuel g T v hg
    cases fuel with
    | zero => rfl
    | succ k => simp [flatten_component_named_fuel, hg]

/-- Witness for C2's guard clause: a glyph name already in the visiting set
contributes nothing. -/
theorem cycle_with_surviving_sibling_witness :
    ("B" ∈ ["B", "A"]) ∧
      flatten_component_named_fuel font_cycle 5 "B" Transform.identity ["B", "A"] = [] :=
  ⟨by decide, cycle_with_surviving_sibling.2 font_cycle 5 "B" Transform.identity
    ["B", "A"] (by decide)⟩

/-! ## Instance list shape (claim C4) -/

/-- The resolved (name, transform) list carries exactly the components'
base-glyph names, in order. -/
theorem resolved_component_transforms_names (p : GlyphLayerProvider) :
    ∀ (comps : List Component) (placed : List PlacedAnchor),
      (resolved_component_transforms p comps placed).map (fun be => be.1) =
        comps.map (fun c => c.base_glyph) := by
  intro comps
  induction comps with
  | nil => intro placed; rfl
  | cons c rest ih =>
      intro placed
      simp only [resolved_component_transforms, List.map_cons]
      rw [ih]

/-- C4: for every provider and layer, `resolve_component_instances_for_layer`
returns exactly one instance per direct component, in ascending
creation-order-token order (the sorted component list is an ascending
permutation of the layer's components); a component whose base glyph is
unresolvable, or whose layer has no contours and no components, still
yields its instance with zero contours. -/
theorem resolve_instances_per_component (provider : GlyphLayerProvider)
    (layer : GlyphLayer) (root_glyph_name : String) :
    ((resolve_component_instances_for_layer provider layer root_glyph_name).map
        (fun inst => inst.component_glyph_name) =
      (sort_components layer.components).map (fun c => c.base_glyph)) ∧
    (resolve_component_instances_for_layer provider layer root_glyph_name).length =
      layer.components.length ∧
    List.Perm (sort_components layer.components) layer.components ∧
    List.Sorted (fun c d => c.token ≤ d.token) (sort_components layer.components) ∧
    (∀ inst ∈ resolve_component_instances_for_layer provider layer root_glyph_name,
      (provider.glyph_layer inst.component_glyph_name = none → inst.contours = []) ∧
      (∀ gl, provider.glyph_layer inst.component_glyph_name = some gl →
        gl.contours = [] → gl.components = [] → inst.contours = [])) := by
  have hnames : (resolve_component_instances_for_layer provider layer root_glyph_name).map
      (fun inst => inst.component_glyph_name) =
      (sort_components layer.components).map (fun c => c.base_glyph) := by
    unfold resolve_component_instances_for_layer resolve_component_instances_fuel
    rw [List.map_map]
    exact resolved_component_transforms_names provider _ _
  refine ⟨hnames, ?_, List.perm_insertionSort _ _, ?_, ?_⟩
  · have h1 := congrArg List.length hnames
    simp only [List.length_map] at h1
    rw [h1]
    unfold sort_components
    exact (List.perm_insertionSort _ _).length_eq
  · haveI : IsTotal Component (fun c d => c.token ≤ d.token) :=
      ⟨fun a b => Nat.le_total _ _⟩
    haveI : IsTrans Component (fun c d => c.token ≤ d.token) :=
      ⟨fun _ _ _ hab hbc => Nat.le_trans hab hbc⟩
    exact List.sorted_insertionSort _ _
  · intro inst hinst
    unfold resolve_component_instances_for_layer resolve_component_instances_fuel at hinst
    obtain ⟨be, hbe, rfl⟩ := List.mem_map.mp hinst
    dsimp only
    constructor
    · intro hnone
      unfold canonical_fuel
      simp only [flatten_component_named_fuel]
      by_cases hroot : be.1 ∈ [root_glyph_name]
      · rw [if_pos hroot]
      · rw [if_neg hroot, hnone]
    · intro gl hsome hc hcomp
      unfold canonical_fuel
      simp only [flatten_component_named_fuel]
      by_cases hroot : be.1 ∈ [root_glyph_name]
      · rw [if_pos hroot]
      · rw [if_neg hroot, hsome]
        dsimp only
        rw [hc, hcomp]
        simp [sort_components, List.insertionSort, resolved_component_transforms]

/-- Witness for C4: a dangling component reference still yields its
instance, with zero contours. -/
theorem resolve_instances_per_component_witness :
    ((⟨"ghost", []⟩ : ResolvedComponentInstance) ∈
        resolve_component_instances_for_layer font_missing layer_ghost_user "user" ∧
      font_missing.glyph_layer "ghost" = none) ∧
    (⟨"ghost", []⟩ : ResolvedComponentInstance).contours = [] :=
  ⟨⟨by decide, by decide⟩,
    ((resolve_instances_per_component font_missing layer_ghost_user "user").2.2.2.2
      ⟨"ghost", []⟩ (by decide)).1 (by decide)⟩

/-! ## Primary anchor attachment (claim C5) -/

/-- A successful anchor-offset lookup comes from a `_X` anchor of the layer
whose target `X` is found in the reversed placed list, and the offset is
exactly the difference between that placed anchor and the transformed
anchor position. -/
theorem anchor_offset_loop_spec (T : Transform) (placed : List PlacedAnchor) :
    ∀ (anchors : List Anchor) (off : AnchorOffset),
      anchor_offset_loop T placed anchors = some off →
      ∃ a ∈ anchors, ∃ nm target pa, a.name = some nm ∧ mark_target nm = some target ∧
        placed.reverse.find? (fun q => q.name == target) = some pa ∧
        off.dx = pa.x - (T.transform_point a.x a.y).1 ∧
        off.dy = pa.y - (T.transform_point a.x a.y).2 := by
  intro anchors
  induction anchors with
  | nil => intro off h; simp [anchor_offset_loop] at h
  | cons a rest ih =>
      intro off h
      simp only [anchor_offset_loop] at h
      cases hn : a.name with
      | none =>
          rw [hn] at h
          obtain ⟨b, hb, hrest⟩ := ih off h
          exact ⟨b, List.mem_cons_of_mem _ hb, hrest⟩
      | some nm =>
          rw [hn] at h
          dsimp only at h
          cases hmt : mark_target nm with
          | none =>
              rw [hmt] at h
              obtain ⟨b, hb, hrest⟩ := ih off h
              exact ⟨b, List.mem_cons_of_mem _ hb, hrest⟩
          | some target =>
              rw [hmt] at h
              dsimp only at h
              cases hf : placed.reverse.find? (fun q => q.name == target) with
              | none =>
                  rw [hf] at h
                  obtain ⟨b, hb, hrest⟩ := ih off h
                  exact ⟨b, List.mem_cons_of_mem _ hb, hrest⟩
              | some pa =>
                  rw [hf] at h
                  simp only [Option.some.injEq] at h
                  exact ⟨a, List.mem_cons_self _ _, nm, target, pa, hn, hmt, hf,
                    by rw [← h], by rw [← h]⟩

set_option maxHeartbeats 1000000 in
/-- C5: in the scenario — base with anchor `top` at (100, 200) and contour
(0,0)-(10,0), mark with `_top` at (5, 0) and the same contour, composite
with component(base) then component(mark), no explicit transforms — the
mark's resolved contour is exactly (95, 200)-(105, 200); and in general,
whenever the component layer's anchors produce an offset (its `_X` anchor
paired with an `X` in the placed list, searched most recently appended
first), the resolved transform is that translation composed on top of the
explicit transform, and it maps the `_X` anchor exactly onto the placed
`X` anchor's absolute position. -/
theorem primary_anchor_attachment :
    (flatten_component_contours_for_layer font_marks layer_comp "comp" =
      [⟨[onPt 0 0, onPt 10 0], false⟩, ⟨[onPt 95 200, onPt 105 200], false⟩]) ∧
    (∀ (provider : GlyphLayerProvider) (component_base_glyph : String)
        (explicit_transform : Transform) (placed_anchors : List PlacedAnchor)
        (component_layer : GlyphLayer) (off : AnchorOffset),
      provider.glyph_layer component_base_glyph = some component_layer →
      anchor_offset_for_component component_layer explicit_transform placed_anchors =
          some off →
      resolve_component_transform provider component_base_glyph explicit_transform
          placed_anchors =
        compose_transform (Transform.translate off.dx off.dy) explicit_transform ∧
      ∃ a ∈ component_layer.anchors, ∃ nm target pa, a.name = some nm ∧
        mark_target nm = some target ∧
        placed_anchors.reverse.find? (fun q => q.name == target) = some pa ∧
        (compose_transform (Transform.translate off.dx off.dy)
            explicit_transform).transform_point a.x a.y = (pa.x, pa.y)) := by
  constructor
  · have h4 : canonical_fuel font_marks = 4 := rfl
    have hmt : mark_target "_top" = some "top" := rfl
    have hmt2 : mark_target "top" = none := rfl
    simp [flatten_component_contours_for_layer, flatten_component_contours_fuel,
      resolve_component_instances_fuel, resolve_component_instances_for_layer,
      resolved_component_transforms, flatten_component_named_fuel, h4,
      resolve_component_transform, anchor_offset_for_component, anchor_offset_loop,
      append_component_anchors, transform_contour_points, sort_components,
      GlyphLayerProvider.glyph_layer, Transform.transform_point, compose_transform,
      Transform.identity, Transform.translate, hmt, hmt2, font_marks, layer_base,
      layer_mark, layer_comp, contour_ten, onPt, List.insertionSort, List.orderedInsert,
      List.find?, flatten_component_named]
    norm_num
  · intro p base E placed layer off h1 h2
    constructor
    · simp only [resolve_component_transform, h1, h2]
    · obtain ⟨a, ha, nm, target, pa, hnm, hmt, hf, hdx, hdy⟩ :=
        anchor_offset_loop_spec E placed layer.anchors off h2
      refine ⟨a, ha, nm, target, pa, hnm, hmt, hf, ?_⟩
      simp only [Transform.transform_point] at hdx hdy
      simp only [compose_transform, Transform.translate, Transform.transform_point,
        Prod.mk.injEq]
      constructor
      · rw [hdx]; ring
      · rw [hdy]; ring

/-- Witness for C5's general clause at the scenario's mark component. -/
theorem primary_anchor_attachment_witness :
    (font_marks.glyph_layer "mark" = some layer_mark ∧
      anchor_offset_for_component layer_mark Transform.identity
        [⟨"top", 100, 200⟩] = some ⟨95, 200⟩) ∧
    resolve_component_transform font_marks "mark" Transform.identity
        [⟨"top", 100, 200⟩] =
      compose_transform (Transform.translate (95 : ℚ) 200) Transform.identity := by
  have h1 : font_marks.glyph_layer "mark" = some layer_mark := rfl
  have hmt : mark_target "_top" = some "top" := rfl
  have h2 : anchor_offset_for_component layer_mark Transform.identity
      [⟨"top", 100, 200⟩] = some ⟨95, 200⟩ := by
    norm_num [anchor_offset_for_component, anchor_offset_loop, hmt,
      Transform.transform_point, Transform.identity, layer_mark, List.find?]
  exact ⟨⟨h1, h2⟩,
    (primary_anchor_attachment.2 font_marks "mark" Transform.identity
      [⟨"top", 100, 200⟩] layer_mark ⟨95, 200⟩ h1 h2).1⟩

/-! ## Placed-anchor locality (claim C10) -/

set_option maxHeartbeats 1600000 in
/-- C10: the placed-anchor list is local to each layer being expanded.
First scenario: a `top` anchor placed at the root level is invisible to a
`_top` mark nested one level down (the mark stays at the origin instead of
attaching to (100, 200)).  Second scenario: inside a wrapper referenced
with an explicit (1000, 0) translation, sibling anchors are placed with the
level-local component transform only — the mark attaches to the local
(100, 200) and the ancestor translation is applied afterwards, giving
(1095, 200), not a doubly-shifted position.  Third scenario: a `top`
anchor placed inside a sibling's nested branch is invisible to a root-level
`_top` mark. -/
theorem placed_anchor_locality :
    (flatten_component_contours_for_layer font_nested layer_root_nested "root" =
      [⟨[onPt 0 0, onPt 10 0], false⟩, ⟨[onPt 0 0, onPt 10 0], false⟩]) ∧
    (flatten_component_contours_for_layer font_shifted layer_root_shift "rootS" =
      [⟨[onPt 1000 0, onPt 1010 0], false⟩, ⟨[onPt 1095 200, onPt 1105 200], false⟩]) ∧
    (flatten_component_contours_for_layer font_sibling layer_root_sib "rootT" =
      [⟨[onPt 0 0, onPt 10 0], false⟩, ⟨[onPt 0 0, onPt 10 0], false⟩]) := by
  have hmt : mark_target "_top" = some "top" := rfl
  have hmt2 : mark_target "top" = none := rfl
  refine ⟨?_, ?_, ?_⟩
  · have h5 : canonical_fuel font_nested = 5 := rfl
    simp [flatten_component_contours_for_layer, flatten_component_contours_fuel,
      resolve_component_instances_fuel, resolve_component_instances_for_layer,
      resolved_component_transforms, flatten_component_named_fuel, h5,
      resolve_component_transform, anchor_offset_for_component, anchor_offset_loop,
      append_component_anchors, transform_contour_points, sort_components,
      GlyphLayerProvider.glyph_layer, Transform.transform_point, compose_transform,
      Transform.identity, Transform.translate, hmt, hmt2, font_nested, layer_base,
      layer_mark, layer_wrapper, layer_root_nested, contour_ten, onPt,
      List.insertionSort, List.orderedInsert, List.find?, flatten_component_named]
  · have h5 : canonical_fuel font_shifted = 5 := rfl
    simp [flatten_component_contours_for_layer, flatten_component_contours_fuel,
      resolve_component_instances_fuel, resolve_component_instances_for_layer,
      resolved_component_transforms, flatten_component_named_fuel, h5,
      resolve_component_transform, anchor_offset_for_component, anchor_offset_loop,
      append_component_anchors, transform_contour_points, sort_components,
      GlyphLayerProvider.glyph_layer, Transform.transform_point, compose_transform,
      Transform.identity, Transform.translate, hmt, hmt2, font_shifted, layer_base,
      layer_mark, layer_wrapper2, layer_root_shift, contour_ten, onPt,
      List.insertionSort, List.orderedInsert, List.find?, flatten_component_named]
    norm_num
  · have h5 : canonical_fuel font_sibling = 5 := rfl
    simp [flatten_component_contours_for_layer, flatten_component_contours_fuel,
      resolve_component_instances_fuel, resolve_component_instances_for_layer,
      resolved_component_transforms, flatten_component_named_fuel, h5,
      resolve_component_transform, anchor_offset_for_component, anchor_offset_loop,
      append_component_anchors, transform_contour_points, sort_components,
      GlyphLayerProvider.glyph_layer, Transform.transform_point, compose_transform,
      Transform.identity, Transform.translate, hmt, hmt2, font_sibling, layer_base,
      layer_mark, layer_wrapper3, layer_root_sib, contour_ten, onPt,
      List.insertionSort, List.orderedInsert, List.find?, flatten_component_named]

/-! ## Curve segment classification (claim C9) -/

/-- The iterator limit never exceeds the point count. -/
theorem seg_limit_le_length (points : List Point) (closed : Bool) :
    seg_limit points closed ≤ points.length := by
  unfold seg_limit
  cases closed with
  | true => simp
  | false => simp [Nat.sub_le]

/-- Indices strictly below the limit always have a point. -/
theorem seg_get_some_of_lt_limit (points : List Point) (closed : Bool) {idx : ℕ}
    (h : idx < seg_limit points closed) :
    ∃ p, seg_get points closed idx = some p := by
  have hlen : idx < points.length := lt_of_lt_of_le h (seg_limit_le_length points closed)
  unfold seg_get
  rw [dif_pos hlen]
  exact ⟨_, rfl⟩

/-- The successor of an index strictly below the limit also has a point
(wrapping to index 0 for closed contours). -/
theorem seg_get_succ_some_of_lt_limit (points : List Point) (closed : Bool) {idx : ℕ}
    (h : idx < seg_limit points closed) :
    ∃ p, seg_get points closed (idx + 1) = some p := by
  have hlt : idx < points.length := lt_of_lt_of_le h (seg_limit_le_length points closed)
  unfold seg_get
  by_cases hlen : idx + 1 < points.length
  · rw [dif_pos hlen]
    exact ⟨_, rfl⟩
  · rw [dif_neg hlen]
    have hne : points.length ≠ 0 := by omega
    have hc : closed = true := by
      cases closed with
      | true => rfl
      | false =>
          exfalso
          have h' : idx < points.length - 1 := by simpa [seg_limit] using h
          omega
    rw [dif_pos ⟨hc, hne⟩]
    exact ⟨_, rfl⟩

/-- Every yielded segment starts at an on-curve point. -/
theorem segment_shape_at_start (points : List Point) (closed : Bool) (i : ℕ)
    (s : CurveSegment) :
    segment_shape_at points closed i s →
    ∃ p, seg_get points closed i = some p ∧ p.is_on_curve = true := by
  cases s with
  | line p1 p2 => exact fun hs => ⟨p1, hs.1, hs.2.2.1⟩
  | quad p1 p2 p3 => exact fun hs => ⟨p1, hs.1, hs.2.2.2.1⟩
  | cubic p1 p2 p3 p4 => exact fun hs => ⟨p1, hs.1, hs.2.2.2.2.1⟩

/-- Soundness of the iterator loop: every yielded segment starts at some
index at or after the current position, strictly below the limit, and
matches the branch conditions there. -/
theorem curve_segments_go_sound (points : List Point) (closed : Bool) :
    ∀ (fuel pos : ℕ) (s : CurveSegment),
      s ∈ curve_segments_go points closed fuel pos →
      ∃ i, pos ≤ i ∧ i < seg_limit points closed ∧ segment_shape_at points closed i s := by
  intro fuel
  induction fuel with
  | zero => intro pos s h; simp [curve_segments_go] at h
  | succ k ih =>
      intro pos s h
      simp only [curve_segments_go] at h
      by_cases hpos : pos < seg_limit points closed
      case neg => rw [if_neg hpos] at h; simp at h
      case pos =>
      rw [if_pos hpos] at h
      cases hg1 : seg_get points closed pos with
      | none => rw [hg1] at h; simp at h
      | some p1 =>
        cases hg2 : seg_get points closed (pos + 1) with
        | none => rw [hg1, hg2] at h; simp at h
        | some p2 =>
          rw [hg1, hg2] at h
          dsimp only at h
          by_cases h12 : (p1.is_on_curve && p2.is_on_curve) = true
          · rw [if_pos h12] at h
            simp only [Bool.and_eq_true] at h12
            rcases List.mem_cons.mp h with rfl | htail
            · exact ⟨pos, le_refl _, hpos, hg1, hg2, h12.1, h12.2⟩
            · obtain ⟨i, hi1, hi2, hi3⟩ := ih _ _ htail
              exact ⟨i, le_trans (Nat.le_succ pos) hi1, hi2, hi3⟩
          · rw [if_neg h12] at h
            by_cases h12b : (p1.is_on_curve && !p2.is_on_curve) = true
            · rw [if_pos h12b] at h
              simp only [Bool.and_eq_true, Bool.not_eq_true'] at h12b
              cases hg3 : seg_get points closed (pos + 2) with
              | none =>
                  rw [hg3] at h
                  obtain ⟨i, hi1, hi2, hi3⟩ := ih _ _ h
                  exact ⟨i, le_trans (Nat.le_succ pos) hi1, hi2, hi3⟩
              | some p3 =>
                  rw [hg3] at h
                  dsimp only at h
                  by_cases h3 : p3.is_on_curve = true
                  · rw [if_pos h3] at h
                    rcases List.mem_cons.mp h with rfl | htail
                    · exact ⟨pos, le_refl _, hpos, hg1, hg2, hg3, h12b.1, h12b.2, h3⟩
                    · obtain ⟨i, hi1, hi2, hi3⟩ := ih _ _ htail
                      exact ⟨i, le_trans (by omega) hi1, hi2, hi3⟩
                  · rw [if_neg h3] at h
                    cases hg4 : seg_get points closed (pos + 3) with
                    | none =>
                        rw [hg4] at h
                        obtain ⟨i, hi1, hi2, hi3⟩ := ih _ _ h
                        exact ⟨i, le_trans (Nat.le_succ pos) hi1, hi2, hi3⟩
                    | some p4 =>
                        rw [hg4] at h
                        rcases List.mem_cons.mp h with rfl | htail
                        · exact ⟨pos, le_refl _, hpos, hg1, hg2, hg3, hg4, h12b.1,
                            h12b.2, Bool.not_eq_true _ ▸ h3⟩
                        · obtain ⟨i, hi1, hi2, hi3⟩ := ih _ _ htail
                          exact ⟨i, le_trans (by omega) hi1, hi2, hi3⟩
            · rw [if_neg h12b] at h
              obtain ⟨i, hi1, hi2, hi3⟩ := ih _ _ h
              exact ⟨i, le_trans (Nat.le_succ pos) hi1, hi2, hi3⟩

/-- Completeness of the iterator loop: a branch-shaped segment at any index
at or after the current position is yielded (the loop lands on every
on-curve index, because it only ever skips off-curve points). -/
theorem curve_segments_go_complete (points : List Point) (closed : Bool) :
    ∀ (fuel pos i : ℕ) (s : CurveSegment),
      seg_limit points closed ≤ fuel + pos → pos ≤ i →
      i < seg_limit points closed → segment_shape_at points closed i s →
      s ∈ curve_segments_go points closed fuel pos := by
  intro fuel
  induction fuel with
  | zero => intro pos i s hfuel hpi hi _; omega
  | succ k ih =>
      intro pos i s hfuel hpi hi hs
      have hpos : pos < seg_limit points closed := lt_of_le_of_lt hpi hi
      simp only [curve_segments_go]
      rw [if_pos hpos]
      rcases Nat.eq_or_lt_of_le hpi with rfl | hlt
      · cases s with
        | line p1 p2 =>
            obtain ⟨hg1, hg2, h1, h2⟩ := hs
            rw [hg1, hg2]
            dsimp only
            rw [if_pos (by simp [h1, h2])]
            exact List.mem_cons_self _ _
        | quad p1 p2 p3 =>
            obtain ⟨hg1, hg2, hg3, h1, h2, h3⟩ := hs
            rw [hg1, hg2]
            dsimp only
            rw [if_neg (by simp [h2]), if_pos (by simp [h1, h2]), hg3]
            dsimp only
            rw [if_pos h3]
            exact List.mem_cons_self _ _
        | cubic p1 p2 p3 p4 =>
            obtain ⟨hg1, hg2, hg3, hg4, h1, h2, h3⟩ := hs
            rw [hg1, hg2]
            dsimp only
            rw [if_neg (by simp [h2]), if_pos (by simp [h1, h2]), hg3]
            dsimp only
            rw [if_neg (by simp [h3]), hg4]
            exact List.mem_cons_self _ _
      · obtain ⟨p1, hg1⟩ := seg_get_some_of_lt_limit points closed hpos
        obtain ⟨p2, hg2⟩ := seg_get_succ_some_of_lt_limit points closed hpos
        rw [hg1, hg2]
        dsimp only
        obtain ⟨sp, hsp, hspon⟩ := segment_shape_at_start points closed i s hs
        by_cases c1 : (p1.is_on_curve && p2.is_on_curve) = true
        · rw [if_pos c1]
          exact List.mem_cons_of_mem _ (ih (pos + 1) i s (by omega) (by omega) hi hs)
        · rw [if_neg c1]
          by_cases c2 : (p1.is_on_curve && !p2.is_on_curve) = true
          · rw [if_pos c2]
            simp only [Bool.and_eq_true, Bool.not_eq_true'] at c2
            have hne1 : i ≠ pos + 1 := by
              intro hip
              rw [hip] at hsp
              rw [hg2] at hsp
              rw [Option.some.injEq] at hsp
              rw [← hsp] at hspon
              rw [c2.2] at hspon
              exact Bool.false_ne_true hspon
            cases hg3 : seg_get points closed (pos + 2) with
            | none => exact ih (pos + 1) i s (by omega) (by omega) hi hs
            | some p3 =>
                dsimp only
                by_cases c3 : p3.is_on_curve = true
                · rw [if_pos c3]
                  exact List.mem_cons_of_mem _
                    (ih (pos + 2) i s (by omega) (by omega) hi hs)
                · rw [if_neg c3]
                  have hne2 : i ≠ pos + 2 := by
                    intro hip
                    rw [hip] at hsp
                    rw [hg3] at hsp
                    rw [Option.some.injEq] at hsp
                    rw [← hsp] at hspon
                    exact c3 hspon
                  cases hg4 : seg_get points closed (pos + 3) with
                  | none => exact ih (pos + 1) i s (by omega) (by omega) hi hs
                  | some p4 =>
                      dsimp only
                      exact List.mem_cons_of_mem _
                        (ih (pos + 3) i s (by omega) (by omega) hi hs)
          · rw [if_neg c2]
            exact ih (pos + 1) i s (by omega) (by omega) hi hs

/-- C9 (amended): every yielded segment starts at an index below the
iterator limit (so open contours yield no segment starting at the last
index, and closed contours may wrap through index 0) and matches the
branch conditions there — Line for on-curve→on-curve, Quad for
on-curve→off-curve→on-curve, Cubic for on-curve→off-curve→off-curve with
the fourth point consumed regardless of its type; and conversely every
index below the limit matching one of those branch shapes yields its
segment. -/
theorem curve_segment_iter_classification :
    ∀ (points : List Point) (closed : Bool),
      (∀ s ∈ curve_segments points closed,
        ∃ i, i < seg_limit points closed ∧ segment_shape_at points closed i s) ∧
      (∀ i, i < seg_limit points closed → ∀ s, segment_shape_at points closed i s →
        s ∈ curve_segments points closed) := by
  intro points closed
  constructor
  · intro s hs
    obtain ⟨i, _, hi, hsh⟩ := curve_segments_go_sound points closed _ 0 s hs
    exact ⟨i, hi, hsh⟩
  · intro i hi s hsh
    exact curve_segments_go_complete points closed (seg_limit points closed) 0 i s
      (by omega) (Nat.zero_le _) hi hsh

/-- Witness for C9 (amended) on a closed triangle: the wrapping segment
from index 2 back to index 0 is yielded. -/
theorem curve_segment_iter_classification_witness :
    ((2 : ℕ) < seg_limit [onPt 0 0, onPt 100 0, onPt 50 100] true ∧
      segment_shape_at [onPt 0 0, onPt 100 0, onPt 50 100] true 2
        (CurveSegment.line (onPt 50 100) (onPt 0 0))) ∧
    CurveSegment.line (onPt 50 100) (onPt 0 0) ∈
      curve_segments [onPt 0 0, onPt 100 0, onPt 50 100] true :=
  ⟨⟨by decide, ⟨rfl, rfl, rfl, rfl⟩⟩,
    (curve_segment_iter_classification [onPt 0 0, onPt 100 0, onPt 50 100] true).2 2
      (by decide) (CurveSegment.line (onPt 50 100) (onPt 0 0)) ⟨rfl, rfl, rfl, rfl⟩⟩

/-- C9 counterexample: on the open run on→off→off→off→on the iterator
yields a Cubic whose fourth point is off-curve — the fourth point of a
cubic is consumed without checking its type, so not every yielded segment
ends on an on-curve point. -/
theorem curve_segment_iter_offcurve_cubic_cex :
    curve_segments [onPt 0 0, offPt 1 0, offPt 2 0, offPt 3 0, onPt 4 0] false =
      [CurveSegment.cubic (onPt 0 0) (offPt 1 0) (offPt 2 0) (offPt 3 0)] ∧
    (offPt 3 0).is_on_curve = false :=
  ⟨rfl, rfl⟩

/-! ## Matrix decomposition (claim C7) -/

/-- C7: for every 6-value affine matrix, `from_matrix` returns `scale_x`
equal to the Euclidean norm of the first column, `scale_y` of magnitude the
norm of the second column and negative exactly when the determinant is
negative, rotation equal to `atan2` of the first column in degrees, the
translation read off directly, `skew_x` from the column dot-product ratio,
and always `skew_y = 0` with transform center (0, 0) — so a
matrix→decomposed round trip never recovers a nonzero Y-skew. -/
theorem from_matrix_decomposition :
    ∀ m : TransformR,
      (DecomposedTransform.from_matrix m).skew_y = 0 ∧
      (DecomposedTransform.from_matrix m).t_center_x = 0 ∧
      (DecomposedTransform.from_matrix m).t_center_y = 0 ∧
      (DecomposedTransform.from_matrix m).translate_x = m.dx ∧
      (DecomposedTransform.from_matrix m).translate_y = m.dy ∧
      (DecomposedTransform.from_matrix m).scale_x = Complex.abs ⟨m.xx, m.xy⟩ ∧
      |(DecomposedTransform.from_matrix m).scale_y| = Complex.abs ⟨m.yx, m.yy⟩ ∧
      ((DecomposedTransform.from_matrix m).scale_y < 0 ↔
        m.xx * m.yy - m.xy * m.yx < 0) ∧
      (DecomposedTransform.from_matrix m).rotation = to_degrees (atan2 m.xy m.xx) ∧
      (DecomposedTransform.from_matrix m).skew_x =
        (if |(DecomposedTransform.from_matrix m).scale_y| > f64_epsilon then
          to_degrees (Real.arctan ((m.xx * m.yx + m.xy * m.yy) /
            ((DecomposedTransform.from_matrix m).scale_x *
              (DecomposedTransform.from_matrix m).scale_y)))
        else 0) := by
  intro m
  have habs1 : Complex.abs ⟨m.xx, m.xy⟩ = Real.sqrt (m.xx * m.xx + m.xy * m.xy) := by
    rw [Complex.abs_apply, Complex.normSq_mk]
  have habs2 : Complex.abs ⟨m.yx, m.yy⟩ = Real.sqrt (m.yx * m.yx + m.yy * m.yy) := by
    rw [Complex.abs_apply, Complex.normSq_mk]
  refine ⟨rfl, rfl, rfl, rfl, rfl, ?_, ?_, ?_, rfl, rfl⟩
  · rw [habs1]; rfl
  · rw [habs2]
    show |if m.xx * m.yy - m.xy * m.yx < 0 then -Real.sqrt (m.yx * m.yx + m.yy * m.yy)
      else Real.sqrt (m.yx * m.yx + m.yy * m.yy)| = _
    split_ifs with hdet
    · rw [abs_neg, abs_of_nonneg (Real.sqrt_nonneg _)]
    · rw [abs_of_nonneg (Real.sqrt_nonneg _)]
  · show (if m.xx * m.yy - m.xy * m.yx < 0 then -Real.sqrt (m.yx * m.yx + m.yy * m.yy)
      else Real.sqrt (m.yx * m.yx + m.yy * m.yy)) < 0 ↔ _
    split_ifs with hdet
    · have hnz : ¬(m.yx = 0 ∧ m.yy = 0) := by
        rintro ⟨h1, h2⟩
        rw [h1, h2] at hdet
        simp at hdet
      have hpos : 0 < m.yx * m.yx + m.yy * m.yy := by
        rcases not_and_or.mp hnz with h | h
        · nlinarith [mul_self_nonneg m.yy, mul_self_pos.mpr h]
        · nlinarith [mul_self_nonneg m.yx, mul_self_pos.mpr h]
      have hs : 0 < Real.sqrt (m.yx * m.yx + m.yy * m.yy) := Real.sqrt_pos.mpr hpos
      constructor
      · intro _; exact hdet
      · intro _; linarith
    · constructor
      · intro hlt
        exact absurd hlt (not_lt.mpr (Real.sqrt_nonneg _))
      · intro hlt
        exact absurd hlt hdet

/-! ## Bounding-box tightness (claim C8) -/

/-- A quadratic Bézier value at `t ∈ [0, 1]` stays above any common lower
bound of the control values (convex combination). -/
theorem quad_eval_1d_ge {p0 c p1 t lo : ℝ} (ht0 : 0 ≤ t) (ht1 : t ≤ 1)
    (h0 : lo ≤ p0) (hc : lo ≤ c) (h1 : lo ≤ p1) :
    lo ≤ quad_eval_1d p0 c p1 t := by
  simp only [quad_eval_1d]
  have hmt : (0 : ℝ) ≤ 1 - t := by linarith
  nlinarith [mul_nonneg (mul_nonneg hmt hmt) (sub_nonneg.mpr h0),
    mul_nonneg (mul_nonneg hmt ht0) (sub_nonneg.mpr hc),
    mul_nonneg (mul_nonneg ht0 ht0) (sub_nonneg.mpr h1)]

/-- A quadratic Bézier value at `t ∈ [0, 1]` stays below any common upper
bound of the control values. -/
theorem quad_eval_1d_le {p0 c p1 t hi : ℝ} (ht0 : 0 ≤ t) (ht1 : t ≤ 1)
    (h0 : p0 ≤ hi) (hc : c ≤ hi) (h1 : p1 ≤ hi) :
    quad_eval_1d p0 c p1 t ≤ hi := by
  simp only [quad_eval_1d]
  have hmt : (0 : ℝ) ≤ 1 - t := by linarith
  nlinarith [mul_nonneg (mul_nonneg hmt hmt) (sub_nonneg.mpr h0),
    mul_nonneg (mul_nonneg hmt ht0) (sub_nonneg.mpr hc),
    mul_nonneg (mul_nonneg ht0 ht0) (sub_nonneg.mpr h1)]

/-- A cubic Bézier value at `t ∈ [0, 1]` stays above any common lower bound
of the control values. -/
theorem cubic_eval_1d_ge {p0 c0 c1 p1 t lo : ℝ} (ht0 : 0 ≤ t) (ht1 : t ≤ 1)
    (h0 : lo ≤ p0) (hc0 : lo ≤ c0) (hc1 : lo ≤ c1) (h1 : lo ≤ p1) :
    lo ≤ cubic_eval_1d p0 c0 c1 p1 t := by
  simp only [cubic_eval_1d]
  have hmt : (0 : ℝ) ≤ 1 - t := by linarith
  nlinarith [mul_nonneg (mul_nonneg (mul_nonneg hmt hmt) hmt) (sub_nonneg.mpr h0),
    mul_nonneg (mul_nonneg (mul_nonneg hmt hmt) ht0) (sub_nonneg.mpr hc0),
    mul_nonneg (mul_nonneg (mul_nonneg hmt ht0) ht0) (sub_nonneg.mpr hc1),
    mul_nonneg (mul_nonneg (mul_nonneg ht0 ht0) ht0) (sub_nonneg.mpr h1)]

/-- A cubic Bézier value at `t ∈ [0, 1]` stays below any common upper bound
of the control values. -/
theorem cubic_eval_1d_le {p0 c0 c1 p1 t hi : ℝ} (ht0 : 0 ≤ t) (ht1 : t ≤ 1)
    (h0 : p0 ≤ hi) (hc0 : c0 ≤ hi) (hc1 : c1 ≤ hi) (h1 : p1 ≤ hi) :
    cubic_eval_1d p0 c0 c1 p1 t ≤ hi := by
  simp only [cubic_eval_1d]
  have hmt : (0 : ℝ) ≤ 1 - t := by linarith
  nlinarith [mul_nonneg (mul_nonneg (mul_nonneg hmt hmt) hmt) (sub_nonneg.mpr h0),
    mul_nonneg (mul_nonneg (mul_nonneg hmt hmt) ht0) (sub_nonneg.mpr hc0),
    mul_nonneg (mul_nonneg (mul_nonneg hmt ht0) ht0) (sub_nonneg.mpr hc1),
    mul_nonneg (mul_nonneg (mul_nonneg ht0 ht0) ht0) (sub_nonneg.mpr h1)]

/-- The quadratic extremum finder only returns parameters strictly inside
(0, 1). -/
theorem find_quad_extremum_1d_mem {p0 c p1 t : ℝ}
    (h : find_quad_extremum_1d p0 c p1 = some t) : 0 < t ∧ t < 1 := by
  simp only [find_quad_extremum_1d] at h
  split_ifs at h with h1 h2
  rw [Option.some.injEq] at h
  rw [← h]
  exact h2

/-- The cubic extrema finder only returns parameters strictly inside
(0, 1). -/
theorem find_cubic_extrema_1d_mem {p0 c0 c1 p1 t : ℝ}
    (h : t ∈ find_cubic_extrema_1d p0 c0 c1 p1) : 0 < t ∧ t < 1 := by
  simp only [find_cubic_extrema_1d] at h
  split_ifs at h
  all_goals simp only [List.mem_append, List.mem_singleton, List.not_mem_nil,
    or_false, false_or] at h
  all_goals first
    | (subst h; assumption)
    | (rcases h with rfl | rfl <;> assumption)

/-- The min-component of the min/max fold stays above a common lower bound
of the accumulator and all folded values. -/
theorem foldl_minmax_ge {f : ℝ → ℝ} {lo : ℝ} :
    ∀ (l : List ℝ) (acc : ℝ × ℝ), (∀ t ∈ l, lo ≤ f t) → lo ≤ acc.1 →
      lo ≤ (l.foldl (fun acc t => (min acc.1 (f t), max acc.2 (f t))) acc).1 := by
  intro l
  induction l with
  | nil => intro acc _ hacc; simpa using hacc
  | cons t rest ih =>
      intro acc h hacc
      simp only [List.foldl_cons]
      exact ih _ (fun u hu => h u (List.mem_cons_of_mem _ hu))
        (le_min hacc (h t (List.mem_cons_self _ _)))

/-- The max-component of the min/max fold stays below a common upper bound
of the accumulator and all folded values. -/
theorem foldl_minmax_le {f : ℝ → ℝ} {hi : ℝ} :
    ∀ (l : List ℝ) (acc : ℝ × ℝ), (∀ t ∈ l, f t ≤ hi) → acc.2 ≤ hi →
      (l.foldl (fun acc t => (min acc.1 (f t), max acc.2 (f t))) acc).2 ≤ hi := by
  intro l
  induction l with
  | nil => intro acc _ hacc; simpa using hacc
  | cons t rest ih =>
      intro acc h hacc
      simp only [List.foldl_cons]
      exact ih _ (fun u hu => h u (List.mem_cons_of_mem _ hu))
        (max_le hacc (h t (List.mem_cons_self _ _)))

/-- The min/max fold is the identity when every folded value already lies
inside the accumulator interval. -/
theorem foldl_minmax_id {f : ℝ → ℝ} :
    ∀ (l : List ℝ) (acc : ℝ × ℝ), (∀ t ∈ l, acc.1 ≤ f t ∧ f t ≤ acc.2) →
      l.foldl (fun acc t => (min acc.1 (f t), max acc.2 (f t))) acc = acc := by
  intro l
  induction l with
  | nil => intro acc _; rfl
  | cons t rest ih =>
      intro acc h
      simp only [List.foldl_cons]
      obtain ⟨hv1, hv2⟩ := h t (List.mem_cons_self _ _)
      rw [min_eq_left hv1, max_eq_left hv2]
      exact ih _ (fun u hu => h u (List.mem_cons_of_mem _ hu))

/-- Both components of the quad axis bounds stay within any common bounds
of the three control values. -/
theorem quad_axis_bounds_within {p0 c p1 lo hi : ℝ}
    (h0l : lo ≤ p0) (hcl : lo ≤ c) (h1l : lo ≤ p1)
    (h0u : p0 ≤ hi) (hcu : c ≤ hi) (h1u : p1 ≤ hi) :
    lo ≤ (quad_axis_bounds p0 c p1).1 ∧ (quad_axis_bounds p0 c p1).2 ≤ hi := by
  unfold quad_axis_bounds
  cases hf : find_quad_extremum_1d p0 c p1 with
  | none => exact ⟨le_min h0l h1l, max_le h0u h1u⟩
  | some t =>
      obtain ⟨ht0, ht1⟩ := find_quad_extremum_1d_mem hf
      dsimp only
      constructor
      · exact le_min (le_min h0l h1l) (quad_eval_1d_ge ht0.le ht1.le h0l hcl h1l)
      · exact max_le (max_le h0u h1u) (quad_eval_1d_le ht0.le ht1.le h0u hcu h1u)

/-- The quad axis bounds collapse to the endpoint interval whenever the
control value lies between the endpoints. -/
theorem quad_axis_bounds_endpoint {p0 c p1 : ℝ}
    (hcl : min p0 p1 ≤ c) (hcu : c ≤ max p0 p1) :
    quad_axis_bounds p0 c p1 = (min p0 p1, max p0 p1) := by
  unfold quad_axis_bounds
  cases hf : find_quad_extremum_1d p0 c p1 with
  | none => rfl
  | some t =>
      obtain ⟨ht0, ht1⟩ := find_quad_extremum_1d_mem hf
      dsimp only
      rw [min_eq_left, max_eq_left]
      · exact quad_eval_1d_le ht0.le ht1.le (le_max_left _ _) hcu (le_max_right _ _)
      · exact quad_eval_1d_ge ht0.le ht1.le (min_le_left _ _) hcl (min_le_right _ _)

/-- Both components of the cubic axis bounds stay within any common bounds
of the four control values. -/
theorem cubic_axis_bounds_within {p0 c0 c1 p1 lo hi : ℝ}
    (h0l : lo ≤ p0) (hc0l : lo ≤ c0) (hc1l : lo ≤ c1) (h1l : lo ≤ p1)
    (h0u : p0 ≤ hi) (hc0u : c0 ≤ hi) (hc1u : c1 ≤ hi) (h1u : p1 ≤ hi) :
    lo ≤ (cubic_axis_bounds p0 c0 c1 p1).1 ∧ (cubic_axis_bounds p0 c0 c1 p1).2 ≤ hi := by
  unfold cubic_axis_bounds
  constructor
  · apply foldl_minmax_ge
    · intro t ht
      obtain ⟨ht0, ht1⟩ := find_cubic_extrema_1d_mem ht
      exact cubic_eval_1d_ge ht0.le ht1.le h0l hc0l hc1l h1l
    · exact le_min h0l h1l
  · apply foldl_minmax_le
    · intro t ht
      obtain ⟨ht0, ht1⟩ := find_cubic_extrema_1d_mem ht
      exact cubic_eval_1d_le ht0.le ht1.le h0u hc0u hc1u h1u
    · exact max_le h0u h1u

/-- The cubic axis bounds collapse to the endpoint interval whenever both
control values lie between the endpoints. -/
theorem cubic_axis_bounds_endpoint {p0 c0 c1 p1 : ℝ}
    (hc0l : min p0 p1 ≤ c0) (hc0u : c0 ≤ max p0 p1)
    (hc1l : min p0 p1 ≤ c1) (hc1u : c1 ≤ max p0 p1) :
    cubic_axis_bounds p0 c0 c1 p1 = (min p0 p1, max p0 p1) := by
  unfold cubic_axis_bounds
  apply foldl_minmax_id
  intro t ht
  obtain ⟨ht0, ht1⟩ := find_cubic_extrema_1d_mem ht
  constructor
  · exact cubic_eval_1d_ge ht0.le ht1.le (min_le_left _ _) hc0l hc1l (min_le_right _ _)
  · exact cubic_eval_1d_le ht0.le ht1.le (le_max_left _ _) hc0u hc1u (le_max_right _ _)

/-- Three-way min collapses when the middle value is above the outer min. -/
theorem min3_collapse {a b c : ℝ} (h : min a c ≤ b) : min a (min b c) = min a c := by
  apply le_antisymm
  · exact le_min (min_le_left _ _) (le_trans (min_le_right _ _) (min_le_right _ _))
  · exact le_min (min_le_left _ _) (le_min h (min_le_right _ _))

/-- Three-way max collapses when the middle value is below the outer max. -/
theorem max3_collapse {a b c : ℝ} (h : b ≤ max a c) : max a (max b c) = max a c := by
  apply le_antisymm
  · exact max_le (le_max_left _ _) (max_le h (le_max_right _ _))
  · exact max_le (le_max_left _ _) (le_trans (le_max_right _ _) (le_max_right _ _))

/-- Four-way min collapses when both middle values are above the outer min. -/
theorem min4_collapse {a b c d : ℝ} (hb : min a d ≤ b) (hc : min a d ≤ c) :
    min a (min b (min c d)) = min a d := by
  apply le_antisymm
  · exact le_min (min_le_left _ _)
      (le_trans (min_le_right _ _) (le_trans (min_le_right _ _) (min_le_right _ _)))
  · exact le_min (min_le_left _ _) (le_min hb (le_min hc (min_le_right _ _)))

/-- Four-way max collapses when both middle values are below the outer max. -/
theorem max4_collapse {a b c d : ℝ} (hb : b ≤ max a d) (hc : c ≤ max a d) :
    max a (max b (max c d)) = max a d := by
  apply le_antisymm
  · exact max_le (le_max_left _ _) (max_le hb (max_le hc (le_max_right _ _)))
  · exact max_le (le_max_left _ _)
      (le_trans (le_max_right _ _) (le_trans (le_max_right _ _) (le_max_right _ _)))

/-- C8 (amended): for every segment, `segment_bounds` is a subset of the
control-point convex-hull box; and it equals the hull box whenever every
interior control point lies inside the endpoints' axis-aligned box (in
particular for control points collinear with and between the endpoints).
Collinearity by itself is neither sufficient nor necessary for equality —
see the counterexample. -/
theorem segment_bounds_tightness (s : RSegment) :
    ((hull_box s).1 ≤ (segment_bounds s).1 ∧
      (hull_box s).2.1 ≤ (segment_bounds s).2.1 ∧
      (segment_bounds s).2.2.1 ≤ (hull_box s).2.2.1 ∧
      (segment_bounds s).2.2.2 ≤ (hull_box s).2.2.2) ∧
    (controls_within_endpoints s → segment_bounds s = hull_box s) := by
  cases s with
  | line p0 p1 =>
      simp [segment_bounds, line_bounds, hull_box]
  | quad p0 c p1 =>
      simp only [segment_bounds, quad_bounds, hull_box, controls_within_endpoints]
      constructor
      · have hx := quad_axis_bounds_within
          (min_le_left p0.x (min c.x p1.x))
          (le_trans (min_le_right _ _) (min_le_left _ _))
          (le_trans (min_le_right _ _) (min_le_right _ _))
          (le_max_left p0.x (max c.x p1.x))
          (le_trans (le_max_left _ _) (le_max_right _ _))
          (le_trans (le_max_right _ _) (le_max_right _ _))
        have hy := quad_axis_bounds_within
          (min_le_left p0.y (min c.y p1.y))
          (le_trans (min_le_right _ _) (min_le_left _ _))
          (le_trans (min_le_right _ _) (min_le_right _ _))
          (le_max_left p0.y (max c.y p1.y))
          (le_trans (le_max_left _ _) (le_max_right _ _))
          (le_trans (le_max_right _ _) (le_max_right _ _))
        exact ⟨hx.1, hy.1, hx.2, hy.2⟩
      · rintro ⟨hxl, hxu, hyl, hyu⟩
        rw [quad_axis_bounds_endpoint hxl hxu, quad_axis_bounds_endpoint hyl hyu,
          min3_collapse hxl, min3_collapse hyl, max3_collapse hxu, max3_collapse hyu]
  | cubic p0 c0 c1 p1 =>
      simp only [segment_bounds, cubic_bounds, hull_box, controls_within_endpoints]
      constructor
      · have hx := cubic_axis_bounds_within
          (min_le_left p0.x (min c0.x (min c1.x p1.x)))
          (le_trans (min_le_right _ _) (min_le_left _ _))
          (le_trans (min_le_right _ _) (le_trans (min_le_right _ _) (min_le_left _ _)))
          (le_trans (min_le_right _ _) (le_trans (min_le_right _ _) (min_le_right _ _)))
          (le_max_left p0.x (max c0.x (max c1.x p1.x)))
          (le_trans (le_max_left _ _) (le_max_right _ _))
          (le_trans (le_trans (le_max_left _ _) (le_max_right _ _)) (le_max_right _ _))
          (le_trans (le_trans (le_max_right _ _) (le_max_right _ _)) (le_max_right _ _))
        have hy := cubic_axis_bounds_within
          (min_le_left p0.y (min c0.y (min c1.y p1.y)))
          (le_trans (min_le_right _ _) (min_le_left _ _))
          (le_trans (min_le_right _ _) (le_trans (min_le_right _ _) (min_le_left _ _)))
          (le_trans (min_le_right _ _) (le_trans (min_le_right _ _) (min_le_right _ _)))
          (le_max_left p0.y (max c0.y (max c1.y p1.y)))
          (le_trans (le_max_left _ _) (le_max_right _ _))
          (le_trans (le_trans (le_max_left _ _) (le_max_right _ _)) (le_max_right _ _))
          (le_trans (le_trans (le_max_right _ _) (le_max_right _ _)) (le_max_right _ _))
        exact ⟨hx.1, hy.1, hx.2, hy.2⟩
      · rintro ⟨⟨hx0l, hx0u, hy0l, hy0u⟩, hx1l, hx1u, hy1l, hy1u⟩
        rw [cubic_axis_bounds_endpoint hx0l hx0u hx1l hx1u,
          cubic_axis_bounds_endpoint hy0l hy0u hy1l hy1u,
          min4_collapse hx0l hx1l, min4_collapse hy0l hy1l,
          max4_collapse hx0u hx1u, max4_collapse hy0u hy1u]

/-- C8 counterexample: collinearity does not characterize hull-box
equality.  The collinear quadratic (0,0)-(2,0)-(1,0) has tight bounds
(0,0,4/3,0) strictly inside its hull box (0,0,2,0); and the non-collinear
cubic (0,0)-(0,1)-(1,0)-(1,1) has tight bounds equal to its hull box. -/
theorem segment_bounds_hull_collinear_cex :
    (seg_collinear (RSegment.quad ⟨0, 0⟩ ⟨2, 0⟩ ⟨1, 0⟩) ∧
      segment_bounds (RSegment.quad ⟨0, 0⟩ ⟨2, 0⟩ ⟨1, 0⟩) ≠
        hull_box (RSegment.quad ⟨0, 0⟩ ⟨2, 0⟩ ⟨1, 0⟩)) ∧
    (¬ seg_collinear (RSegment.cubic ⟨0, 0⟩ ⟨0, 1⟩ ⟨1, 0⟩ ⟨1, 1⟩) ∧
      segment_bounds (RSegment.cubic ⟨0, 0⟩ ⟨0, 1⟩ ⟨1, 0⟩ ⟨1, 1⟩) =
        hull_box (RSegment.cubic ⟨0, 0⟩ ⟨0, 1⟩ ⟨1, 0⟩ ⟨1, 1⟩)) := by
  refine ⟨⟨by norm_num [seg_collinear], ?_⟩, ⟨by norm_num [seg_collinear], ?_⟩⟩
  · have hb : segment_bounds (RSegment.quad ⟨0, 0⟩ ⟨2, 0⟩ ⟨1, 0⟩) = (0, 0, 4/3, 0) := by
      have hfx : find_quad_extremum_1d (0:ℝ) 2 1 = some (2/3) := by
        have habs : |(0:ℝ) - 2 * 2 + 1| = 3 := by
          rw [show (0:ℝ) - 2 * 2 + 1 = -3 by norm_num]
          rw [abs_neg]
          exact abs_of_nonneg (by norm_num)
        simp only [find_quad_extremum_1d, tol12]
        rw [if_neg (by rw [habs]; norm_num)]
        rw [if_pos (by norm_num)]
        norm_num
      have hfy : find_quad_extremum_1d (0:ℝ) 0 0 = none := by
        simp only [find_quad_extremum_1d, tol12]
        rw [if_pos (by norm_num)]
      simp only [segment_bounds, quad_bounds, quad_axis_bounds, hfx, hfy]
      norm_num [quad_eval_1d, min_def, max_def]
    have hh : hull_box (RSegment.quad ⟨0, 0⟩ ⟨2, 0⟩ ⟨1, 0⟩) = (0, 0, 2, 0) := by
      norm_num [hull_box, min_def, max_def]
    rw [hb, hh]
    norm_num [Prod.ext_iff]
  · have hx : find_cubic_extrema_1d (0:ℝ) 0 1 1 = [] := by
      simp only [find_cubic_extrema_1d, tol12]
      rw [if_neg (by
        rw [show -3*(0:ℝ) + 9*0 - 9*1 + 3*1 = -6 by norm_num]
        rw [abs_neg]
        rw [abs_of_nonneg (by norm_num : (0:ℝ) ≤ 6)]
        norm_num)]
      rw [if_neg (by norm_num)]
      have hs : Real.sqrt ((6*(0:ℝ) - 12*0 + 6*1) * (6*(0:ℝ) - 12*0 + 6*1) -
          4 * (-3*(0:ℝ) + 9*0 - 9*1 + 3*1) * (-3*(0:ℝ) + 3*0)) = 6 := by
        rw [show (6*(0:ℝ) - 12*0 + 6*1) * (6*(0:ℝ) - 12*0 + 6*1) -
          4 * (-3*(0:ℝ) + 9*0 - 9*1 + 3*1) * (-3*(0:ℝ) + 3*0) = 6^2 by norm_num]
        exact Real.sqrt_sq (by norm_num)
      rw [hs]
      rw [if_neg (by norm_num), if_neg (by norm_num)]
      rfl
    have hy : find_cubic_extrema_1d (0:ℝ) 1 0 1 = [1/2, 1/2] := by
      simp only [find_cubic_extrema_1d, tol12]
      rw [if_neg (by
        rw [show -3*(0:ℝ) + 9*1 - 9*0 + 3*1 = 12 by norm_num]
        rw [abs_of_nonneg (by norm_num : (0:ℝ) ≤ 12)]
        norm_num)]
      rw [if_neg (by norm_num)]
      have hs : Real.sqrt ((6*(0:ℝ) - 12*1 + 6*0) * (6*(0:ℝ) - 12*1 + 6*0) -
          4 * (-3*(0:ℝ) + 9*1 - 9*0 + 3*1) * (-3*(0:ℝ) + 3*1)) = 0 := by
        rw [show (6*(0:ℝ) - 12*1 + 6*0) * (6*(0:ℝ) - 12*1 + 6*0) -
          4 * (-3*(0:ℝ) + 9*1 - 9*0 + 3*1) * (-3*(0:ℝ) + 3*1) = 0 by norm_num]
        exact Real.sqrt_zero
      rw [hs]
      rw [if_pos (by norm_num), if_pos (by norm_num)]
      norm_num
    simp only [segment_bounds, cubic_bounds, cubic_axis_bounds, hull_box, hx, hy,
      List.foldl_cons, List.foldl_nil]
    norm_num [cubic_eval_1d, min_def, max_def]

/-- Witness for C8 (amended) at the repo's collinear-in-between cubic
(0,0)-(25,25)-(75,75)-(100,100): the control points lie inside the
endpoint box, so the tight bounds equal the hull box. -/
theorem segment_bounds_tightness_witness :
    controls_within_endpoints (RSegment.cubic ⟨0, 0⟩ ⟨25, 25⟩ ⟨75, 75⟩ ⟨100, 100⟩) ∧
    segment_bounds (RSegment.cubic ⟨0, 0⟩ ⟨25, 25⟩ ⟨75, 75⟩ ⟨100, 100⟩) =
      hull_box (RSegment.cubic ⟨0, 0⟩ ⟨25, 25⟩ ⟨75, 75⟩ ⟨100, 100⟩) :=
  ⟨by norm_num [controls_within_endpoints, min_def, max_def],
    (segment_bounds_tightness (RSegment.cubic ⟨0, 0⟩ ⟨25, 25⟩ ⟨75, 75⟩ ⟨100, 100⟩)).2
      (by norm_num [controls_within_endpoints, min_def, max_def])⟩
